import Mathlib

/-!
Verification development for the syllabus-organizer core (src/organizer.py).

Conventions of the shallow embedding:
* Python strings are `List Char` (`Str`).  Character classes (`\w`, `\s`,
  `\d`, upper/lower case) are modelled over ASCII, matching the ASCII
  fragment of Python's Unicode classes; the texts the claims quantify over
  are covered by this fragment.
* Python regular expressions are embedded either through the small
  backtracking engine `RE` below (preference order identical to Python:
  alternation left first, quantifiers greedy longest-first) or, for the
  simplest anchored patterns, as direct list functions; each definition
  carries the original pattern in a comment.
* The optional spaCy semantic analyzer is modelled in its unavailable
  configuration (`is_available() == false`), in which every semantic
  branch of the source is skipped and classification runs on the rule
  tables alone.
* The classifier's recursion into split segments is indexed by a fuel
  parameter (the source recursion terminates because splits shorten the
  text); theorems hold uniformly in the fuel.
-/

abbrev Str := List Char

/-- Python `\s` and `str.strip` whitespace, ASCII fragment. -/
def isPySpace (c : Char) : Bool :=
  c = ' ' || c = '\t' || c = '\n' || c = '\r' || c = '\x0b' || c = '\x0c'

/-- Python `\d`, ASCII fragment. -/
def isDigitC (c : Char) : Bool := '0' ≤ c && c ≤ '9'

def isLowerC (c : Char) : Bool := 'a' ≤ c && c ≤ 'z'

def isUpperC (c : Char) : Bool := 'A' ≤ c && c ≤ 'Z'

def isAlphaC (c : Char) : Bool := isLowerC c || isUpperC c

/-- Python `\w`, ASCII fragment. -/
def isWordC (c : Char) : Bool := isAlphaC c || isDigitC c || c = '_'

/-- Python `str.lower`, ASCII fragment. -/
def pyLower (c : Char) : Char :=
  if isUpperC c then Char.ofNat (c.toNat + 32) else c

def lowerStr (l : Str) : Str := l.map pyLower

/-- Python `str.strip()` (strip leading and trailing whitespace). -/
def strip (l : Str) : Str :=
  ((l.dropWhile isPySpace).reverse.dropWhile isPySpace).reverse

/-- The character-replacement table of `normalize_pdf_text`: smart quotes,
en/em dashes and the non-breaking space map to ASCII, the BOM is deleted.
The replaced characters are pairwise distinct and never produced as
outputs, so the source's chain of `str.replace` calls equals one pass. -/
def replChar (c : Char) : Option Char :=
  if c = '’' then some (Char.ofNat 39)
  else if c = '‘' then some (Char.ofNat 39)
  else if c = '“' then some '"'
  else if c = '”' then some '"'
  else if c = '–' then some '-'
  else if c = '—' then some '-'
  else if c = ' ' then some ' '
  else if c = '﻿' then none
  else some c

def replaceSpecials (l : Str) : Str := l.filterMap replChar

/-- Python `re.sub` of `(\w)-\s+(\w)` with `\1\2`: scan left to right,
at each position try to match word-char, `-`, one or more whitespace,
word-char; on a match emit the two word-chars and resume after the match
(non-overlapping), otherwise emit the char and move one position right.
The recursion is indexed by the remaining length as fuel so the kernel
can evaluate it; every step consumes at least one character, so the fuel
is always sufficient. -/
def dehyphenGo : Nat → Str → Str
  | 0, l => l
  | _ + 1, [] => []
  | fuel + 1, c :: rest =>
    if isWordC c then
      match rest with
      | [] => [c]
      | d :: r2 =>
        if d = '-' then
          match r2.dropWhile isPySpace with
          | w :: tail =>
            if (r2.takeWhile isPySpace).length ≠ 0 && isWordC w then
              c :: w :: dehyphenGo fuel tail
            else c :: dehyphenGo fuel (d :: r2)
          | [] => c :: dehyphenGo fuel (d :: r2)
        else c :: dehyphenGo fuel (d :: r2)
    else c :: dehyphenGo fuel rest

def dehyphen (l : Str) : Str := dehyphenGo l.length l

/-- Python `re.sub(r'\s+', ' ', text)`: each maximal whitespace run
becomes a single space (the flag records being inside a run). -/
def collapseGo : Bool → Str → Str
  | _, [] => []
  | inWs, c :: r =>
    if isPySpace c then
      if inWs then collapseGo true r
      else ' ' :: collapseGo true r
    else c :: collapseGo false r

def collapseWs (l : Str) : Str := collapseGo false l

/-- The source's `normalize_pdf_text`: character replacements, hyphenated
line-break rejoin, whitespace collapse, strip. -/
def normalizePdfText (l : Str) : Str :=
  strip (collapseWs (dehyphen (replaceSpecials l)))

/-! ### A small backtracking regular-expression engine

`reEnds r s i` enumerates the possible end positions of a match of `r`
at position `i` of `s`, in exactly Python's preference order: alternation
tries the left branch first, quantifiers are greedy (longest first).  The
head of the list is therefore the end of the match Python's `re` would
produce.  Quantified subterms are restricted to character classes (as in
every pattern of the source), which keeps the matcher structurally
recursive. -/

inductive RE where
  | eps
  | bos
  | eos
  | wb
  | cls (p : Char → Bool)
  | seq (a b : RE)
  | alt (a b : RE)
  | star (p : Char → Bool)
  | plus (p : Char → Bool)
  | rep (p : Char → Bool) (lo : Nat) (hi : Option Nat)
  | opt (a : RE)
  | look (a : RE)
  | lookb (p : Char → Bool)

/-- Length of the run of characters satisfying `p` starting at `i`. -/
def countWhile (p : Char → Bool) (s : Str) (i : Nat) : Nat :=
  ((s.drop i).takeWhile p).length

def isWordAt (s : Str) (i : Nat) : Bool :=
  match s.get? i with
  | some c => isWordC c
  | none => false

def reEnds : RE → Str → Nat → List Nat
  | .eps, _, i => [i]
  | .bos, _, i => if i = 0 then [i] else []
  | .eos, s, i => if i = s.length then [i] else []
  | .wb, s, i =>
      let left := if i = 0 then false else isWordAt s (i - 1)
      if left != isWordAt s i then [i] else []
  | .cls p, s, i =>
      match s.get? i with
      | some c => if p c then [i + 1] else []
      | none => []
  | .seq a b, s, i => (reEnds a s i).flatMap (fun j => reEnds b s j)
  | .alt a b, s, i => reEnds a s i ++ reEnds b s i
  | .star p, s, i =>
      let n := countWhile p s i
      (List.range (n + 1)).map (fun k => i + n - k)
  | .plus p, s, i =>
      let n := countWhile p s i
      (List.range n).map (fun k => i + n - k)
  | .rep p lo hi, s, i =>
      let n := countWhile p s i
      let top := match hi with | some h => min n h | none => n
      if lo ≤ top then (List.range (top - lo + 1)).map (fun k => i + top - k)
      else []
  | .opt a, s, i => reEnds a s i ++ [i]
  | .look a, s, i => if (reEnds a s i).isEmpty then [] else [i]
  | .lookb p, s, i =>
      if i = 0 then []
      else
        match s.get? (i - 1) with
        | some c => if p c then [i] else []
        | none => []

/-- Python `re.search`: the leftmost position with a match, together with
the end of the preferred match there. -/
def searchGo (r : RE) (s : Str) : Nat → Nat → Option (Nat × Nat)
  | 0, _ => none
  | fuel + 1, i =>
    if i ≤ s.length then
      match reEnds r s i with
      | e :: _ => some (i, e)
      | [] => searchGo r s fuel (i + 1)
    else none

def searchAux (r : RE) (s : Str) (i : Nat) : Option (Nat × Nat) :=
  searchGo r s (s.length + 1 - i) i

def reSearchB (r : RE) (s : Str) : Bool := (searchAux r s 0).isSome

/-- Python `re.match` used as a boolean gate (match at position 0). -/
def reMatchB (r : RE) (s : Str) : Bool := !(reEnds r s 0).isEmpty

/-- Python `re.finditer`: non-overlapping matches, scanning left to
right, resuming after each match (one step forward on an empty match). -/
def finditerGo (r : RE) (s : Str) : Nat → Nat → List (Nat × Nat)
  | 0, _ => []
  | fuel + 1, i =>
    if i ≤ s.length then
      match reEnds r s i with
      | e :: _ => (i, e) :: finditerGo r s fuel (if i < e then e else i + 1)
      | [] => finditerGo r s fuel (i + 1)
    else []

def finditerAux (r : RE) (s : Str) (i : Nat) : List (Nat × Nat) :=
  finditerGo r s (s.length + 1 - i) i

def reFindIter (r : RE) (s : Str) : List (Nat × Nat) := finditerAux r s 0

/-- A two-part pattern `seq a b` searched like Python, additionally
reporting the boundary between the `a`-part and the `b`-part of the
match (used to model `re.split` with capture groups): result entries are
`(start, boundary, stop)`, non-overlapping, left to right. -/
def pairFindGo (a b : RE) (s : Str) : Nat → Nat → List (Nat × Nat × Nat)
  | 0, _ => []
  | fuel + 1, i =>
    if i ≤ s.length then
      match (reEnds a s i).findSome?
          (fun j => match reEnds b s j with
            | e :: _ => some (j, e)
            | [] => none) with
      | some (j, e) => (i, j, e) :: pairFindGo a b s fuel (if i < e then e else i + 1)
      | none => pairFindGo a b s fuel (i + 1)
    else []

def pairFindAux (a b : RE) (s : Str) (i : Nat) : List (Nat × Nat × Nat) :=
  pairFindGo a b s (s.length + 1 - i) i

def pairFindIter (a b : RE) (s : Str) : List (Nat × Nat × Nat) :=
  pairFindAux a b s 0

def RE.ch (c : Char) : RE := .cls (fun x => x = c)

/-- Case-insensitive single character (`re.I`). -/
def RE.chci (c : Char) : RE := .cls (fun x => pyLower x = pyLower c)

def RE.lit (w : String) : RE := w.data.foldr (fun c r => RE.seq (RE.ch c) r) .eps

def RE.litci (w : String) : RE := w.data.foldr (fun c r => RE.seq (RE.chci c) r) .eps

/-- Character class given by listing (`[...]`). -/
def RE.anyOf (w : String) : RE := .cls (fun c => w.data.contains c)

/-- Python `.` (any character except newline). -/
def RE.dot : RE := .cls (fun c => c ≠ '\n')

def RE.cat (rs : List RE) : RE := rs.foldr RE.seq .eps

def RE.alts : List RE → RE
  | [] => .cls (fun _ => false)
  | [r] => r
  | r :: rs => .alt r (RE.alts rs)

/-- Alternation of plain literals. -/
def RE.words (ws : List String) : RE := RE.alts (ws.map RE.lit)

def RE.wordsci (ws : List String) : RE := RE.alts (ws.map RE.litci)

/-! ### Shared pattern atoms -/

def apos : Char := Char.ofNat 39

def wsC : RE := .cls isPySpace

def dC : RE := .cls isDigitC

def upC : RE := .cls isUpperC

def loC : RE := .cls isLowerC

def alC : RE := .cls isAlphaC

/-- Pattern `\(\d{4}\)`. -/
def yearParenRE : RE := RE.cat [.ch '(', .rep isDigitC 4 (some 4), .ch ')']

/-! ### looks_like_author -/

/-- The eight anchored author-shape patterns of `looks_like_author`,
tried with `re.match` (case sensitive). -/
def authorPatterns : List RE :=
  [ -- ^[A-Z][a-z]+
    RE.cat [upC, .plus isLowerC],
    -- ^[A-Z][\x27][A-Z]?[a-z]+
    RE.cat [upC, .ch apos, .opt upC, .plus isLowerC],
    -- ^(?:van|von|de|del|la|le|du|dos|das)\s+[A-Z]
    RE.cat [RE.words ["van", "von", "de", "del", "la", "le", "du", "dos", "das"],
      .plus isPySpace, upC],
    -- ^Mc[A-Z][a-z]+
    RE.cat [RE.lit "Mc", upC, .plus isLowerC],
    -- ^Mac[A-Z][a-z]+
    RE.cat [RE.lit "Mac", upC, .plus isLowerC],
    -- ^[A-Z][a-z]+,\s*[A-Z]
    RE.cat [upC, .plus isLowerC, .ch ',', .star isPySpace, upC],
    -- ^[A-Z][a-z]+\s+(?:and|&)\s+[A-Z][a-z]+
    RE.cat [upC, .plus isLowerC, .plus isPySpace, .alt (RE.lit "and") (RE.ch '&'),
      .plus isPySpace, upC, .plus isLowerC],
    -- ^[A-Z][a-z]+\s+et\s+al
    RE.cat [upC, .plus isLowerC, .plus isPySpace, RE.lit "et", .plus isPySpace, RE.lit "al"] ]

def looksLikeAuthor (text0 : Str) : Bool :=
  let text := strip text0
  if text.length = 0 then false
  else authorPatterns.any (fun p => reMatchB p text)

/-! ### extract_author_year_pairs -/

/-- Pattern of `extract_author_year_pairs`:
`([A-Z][a-z]+(?:\s+(?:and|&)\s+[A-Z][a-z]+)?(?:\s+et\s+al\.?)?)\s*[\(,]?\s*(\d{4})\)?`. -/
def authorYearRE : RE := RE.cat [upC, .plus isLowerC,
  .opt (RE.cat [.plus isPySpace, .alt (RE.lit "and") (RE.ch '&'), .plus isPySpace,
    upC, .plus isLowerC]),
  .opt (RE.cat [.plus isPySpace, RE.lit "et", .plus isPySpace, RE.lit "al",
    .opt (RE.ch '.')]),
  .star isPySpace, .opt (RE.anyOf "(,"), .star isPySpace, .rep isDigitC 4 (some 4),
  .opt (RE.ch ')')]

/-- The start offsets of the author-year matches (the only component of
the returned tuples the callers use). -/
def extractAuthorYearStarts (t : Str) : List Nat :=
  (reFindIter authorYearRE t).map (fun m => m.1)

/-! ### split_concatenated_readings -/

def sliceStr (t : Str) (a b : Nat) : Str := (t.drop a).take (b - a)

/-- Strategy 1 separator group: `(\.\s*|\)\s*\.?\s*)`. -/
def splitSepRE : RE :=
  .alt (RE.cat [.ch '.', .star isPySpace])
    (RE.cat [.ch ')', .star isPySpace, .opt (.ch '.'), .star isPySpace])

/-- Strategy 1 author group:
`([A-Z][a-z]+(?:\s+(?:and|&)\s+[A-Z][a-z]+)?(?:\s+et\s+al\.?)?\s*[\(,]\s*\d{4})`. -/
def splitAuthRE : RE := RE.cat [upC, .plus isLowerC,
  .opt (RE.cat [.plus isPySpace, .alt (RE.lit "and") (RE.ch '&'), .plus isPySpace,
    upC, .plus isLowerC]),
  .opt (RE.cat [.plus isPySpace, RE.lit "et", .plus isPySpace, RE.lit "al",
    .opt (RE.ch '.')]),
  .star isPySpace, .anyOf "(,", .star isPySpace, .rep isDigitC 4 (some 4)]

/-- Cut `t` at the given ascending positions. -/
def cutAt (t : Str) : List Nat → Nat → List Str
  | [], a => [t.drop a]
  | p :: ps, a => sliceStr t a p :: cutAt t ps p

/-- Strategy 1 of `split_concatenated_readings`: `re.split` on the
separator-author boundary keeps all pieces, and the accumulation loop
rebuilds exactly the segments between consecutive author-group starts;
segments are stripped and kept when longer than 25 characters. -/
def strategy1 (text : Str) : List Str :=
  let cuts := (pairFindIter splitSepRE splitAuthRE text).map (fun m => m.2.1)
  if cuts.isEmpty then []
  else ((cutAt text cuts 0).map strip).filter (fun r => 25 < r.length)

/-- Strategy 2 gate: `(?:^|[.\s])(\d+[\.\)]\s*|[-•●○]\s*)([A-Z][a-z]+)`. -/
def bulletMarkerRE : RE :=
  .alt (RE.cat [.plus isDigitC, .anyOf ".)", .star isPySpace])
    (RE.cat [.anyOf "-•●○", .star isPySpace])

def bulletGateRE : RE := RE.cat
  [.alt .bos (.cls (fun c => c = '.' || isPySpace c)),
   bulletMarkerRE, upC, .plus isLowerC]

/-- Strategy 2 split prefix `(?:^|\s)` and group-plus-lookahead
`(\d+[\.\)]\s*|[-•●○]\s*)(?=[A-Z][a-z]+)`. -/
def s2PreRE : RE := .alt .bos (.cls isPySpace)

def s2GrpRE : RE := RE.cat [bulletMarkerRE, .look (RE.cat [upC, .plus isLowerC])]

/-- The parts list `re.split` produces: pieces interleaved with the
captured marker groups. -/
def s2PartsAux (t : Str) : Nat → List (Nat × Nat × Nat) → List Str
  | a, [] => [t.drop a]
  | a, (st, j, e) :: ms => sliceStr t a st :: sliceStr t j e :: s2PartsAux t e ms

def s2Parts (t : Str) : List Str := s2PartsAux t 0 (pairFindIter s2PreRE s2GrpRE t)

/-- Marker test inside the strategy 2 loop: `^(\d+[\.\)]|[-•●○])$`. -/
def s2MarkerFullRE : RE := RE.cat
  [.alt (RE.cat [.plus isDigitC, .anyOf ".)"]) (.anyOf "-•●○"), .eos]

def s2Loop : List Str → Str → List Str → List Str
  | [], cur, acc => if 25 < cur.length then acc ++ [cur] else acc
  | p :: ps, cur, acc =>
    let p := strip p
    if p.length = 0 then s2Loop ps cur acc
    else if reMatchB s2MarkerFullRE p then
      s2Loop ps [] (if 25 < cur.length then acc ++ [cur] else acc)
    else s2Loop ps (if cur.length = 0 then p else cur ++ ' ' :: p) acc

def strategy2 (text : Str) : List Str := s2Loop (s2Parts text) [] []

/-- Python `str.split` on a single character (keeps empty parts). -/
def splitCharAux (c : Char) : Str → Str → List Str
  | [], cur => [cur.reverse]
  | x :: xs, cur =>
    if x = c then cur.reverse :: splitCharAux c xs []
    else splitCharAux c xs (x :: cur)

def splitChar (c : Char) (t : Str) : List Str := splitCharAux c t []

def s3Loop : List Str → List Str → List Str
  | [], acc => acc.reverse
  | p :: ps, acc =>
    let p := strip p
    if 25 < p.length then
      if looksLikeAuthor p || reSearchB yearParenRE p then s3Loop ps (p :: acc)
      else
        match acc with
        | last :: restAcc => s3Loop ps ((last ++ ';' :: ' ' :: p) :: restAcc)
        | [] => s3Loop ps [p]
    else s3Loop ps acc

/-- Strategy 3: split on semicolons, re-merging parts that look like
neither an author start nor contain a parenthesised year. -/
def strategy3 (text : Str) : List Str := s3Loop (splitChar ';' text) []

/-- Strategy 4 backward scan for `.` or `;` followed by a space (or end
of text), from `start - 1` down to `lb + 1`. -/
def s4BackDot (t : Str) (start lb : Nat) : Option Nat :=
  ((((List.range start).filter (fun j => lb < j)).reverse).find?
    (fun j =>
      (match t.get? j with
       | some c => c = '.' || c = ';'
       | none => false) &&
      (t.length ≤ j + 1 ||
       match t.get? (j + 1) with
       | some c => c = ' '
       | none => false))).map (fun j => j + 1)

/-- Strategy 4 backward scan for `)` followed by a space. -/
def s4BackParen (t : Str) (start lb : Nat) : Option Nat :=
  ((((List.range start).filter (fun j => lb < j)).reverse).find?
    (fun j =>
      (match t.get? j with
       | some c => c = ')'
       | none => false) &&
      (j + 1 < t.length &&
       match t.get? (j + 1) with
       | some c => c = ' '
       | none => false))).map (fun j => j + 1)

def s4Step (t : Str) (acc : Nat × List Str) (start : Nat) : Nat × List Str :=
  let lastEnd := acc.1
  let sp :=
    match s4BackDot t start (max lastEnd (start - 20)) with
    | some v => some v
    | none => s4BackParen t start (max lastEnd (start - 10))
  match sp with
  | some v =>
    if lastEnd < v then
      let reading := strip (sliceStr t lastEnd v)
      (v, if 25 < reading.length then acc.2 ++ [reading] else acc.2)
    else acc
  | none => acc

/-- Strategy 4: between consecutive author-year matches, look backward
for a sentence-ending anchor and cut there. -/
def strategy4 (t : Str) : List Str :=
  let starts := extractAuthorYearStarts t
  if starts.length ≤ 1 then []
  else
    let res := (starts.drop 1).foldl (s4Step t) (0, [])
    let remaining := strip (t.drop res.1)
    if 25 < remaining.length then res.2 ++ [remaining] else res.2

/-- The source's `split_concatenated_readings`: normalize, then try the
four strategies in order, accepting the first that yields more than one
segment; otherwise return the (normalized) text as a single segment, or
the empty list when the normalized text is empty. -/
def splitConcatenatedReadings (text0 : Str) : List Str :=
  let text := normalizePdfText text0
  if text.length = 0 then []
  else if text.length < 40 then [text]
  else
    let r1 := strategy1 text
    if 1 < r1.length then r1
    else
      let r2 := if reSearchB bulletGateRE text then strategy2 text else []
      if 1 < r2.length then r2
      else
        let r3 := if text.contains ';' then strategy3 text else []
        if 1 < r3.length then r3
        else
          let r4 := strategy4 text
          if 1 < r4.length then r4
          else [text]

/-! ### is_course_description -/

/-- Helper: word-boundary-delimited literal `\b...\b`. -/
def RE.blit (w : String) : RE := RE.cat [.wb, RE.lit w, .wb]

/-- The course-description patterns, searched in `text.lower().strip()`. -/
def courseDescPatterns : List RE :=
  [ RE.blit "this course", RE.blit "the course", RE.blit "this class",
    RE.blit "the class", RE.blit "this seminar", RE.blit "students will",
    RE.blit "students learn", RE.blit "students are", RE.blit "we will",
    RE.blit "we explore", RE.blit "we examine", RE.blit "you will",
    RE.blit "you learn", RE.blit "introduces students", RE.blit "designed to",
    RE.blit "purpose of this", RE.blit "goal of this", RE.blit "aims to",
    RE.blit "seeks to", RE.blit "focuses on",
    -- \bexplores\b.*\bthrough\b
    RE.cat [.wb, RE.lit "explores", .wb, .star (fun c => c ≠ '\n'), .wb,
      RE.lit "through", .wb],
    -- \bexamines\b.*\bthrough\b
    RE.cat [.wb, RE.lit "examines", .wb, .star (fun c => c ≠ '\n'), .wb,
      RE.lit "through", .wb],
    -- \baddresses\b.*\bquestions?\b
    RE.cat [.wb, RE.lit "addresses", .wb, .star (fun c => c ≠ '\n'), .wb,
      RE.lit "question", .opt (.ch 's'), .wb],
    -- \bwhat is\b.*\?\s*what\b
    RE.cat [.wb, RE.lit "what is", .wb, .star (fun c => c ≠ '\n'), .ch '?',
      .star isPySpace, RE.lit "what", .wb],
    -- \bwhat are\b.*\?\s*
    RE.cat [.wb, RE.lit "what are", .wb, .star (fun c => c ≠ '\n'), .ch '?',
      .star isPySpace],
    -- \bhow do\b.*\?
    RE.cat [.wb, RE.lit "how do", .wb, .star (fun c => c ≠ '\n'), .ch '?'],
    -- \bwhy do\b.*\?
    RE.cat [.wb, RE.lit "why do", .wb, .star (fun c => c ≠ '\n'), .ch '?'] ]

def isCourseDescription (text : Str) : Bool :=
  let tl := strip (lowerStr text)
  courseDescPatterns.any (fun p => reSearchB p tl)

/-! ### get_instruction_score -/

/-- Python `re.sub(r'^[\d\.\)\-•*]+\s*', '', text)` (one anchored match;
the two greedy runs are over disjoint classes, so maximal runs). -/
def isBulletLead (c : Char) : Bool :=
  isDigitC c || c = '.' || c = ')' || c = '-' || c = '•' || c = '*'

def stripLeadingBullets (t : Str) : Str :=
  let b := t.takeWhile isBulletLead
  if b.length = 0 then t else (t.drop b.length).dropWhile isPySpace

/-- Strong instruction starters (+3 each), searched in the lowered
cleaned text. -/
def instrStrongPatterns : List RE :=
  [ -- ^(read|write|submit|complete|prepare|review|discuss|bring|post|upload|email|send)\s
    RE.cat [.bos, RE.words ["read", "write", "submit", "complete", "prepare",
      "review", "discuss", "bring", "post", "upload", "email", "send"], wsC],
    -- ^(please|note:|note that|you should|you will|you must)\b
    RE.cat [.bos, RE.words ["please", "note:", "note that", "you should",
      "you will", "you must"], .wb],
    -- ^(students will|students should|students must)\b
    RE.cat [.bos, RE.words ["students will", "students should",
      "students must"], .wb],
    -- ^(be prepared|come prepared|make sure|don\x27t forget|remember to)\b
    RE.cat [.bos, RE.alts [RE.lit "be prepared", RE.lit "come prepared",
      RE.lit "make sure",
      RE.cat [RE.lit "don", .ch apos, RE.lit "t forget"],
      RE.lit "remember to"], .wb],
    -- ^(assignment|homework|essay|paper due|exam|quiz|midterm|final)\b
    RE.cat [.bos, RE.words ["assignment", "homework", "essay", "paper due",
      "exam", "quiz", "midterm", "final"], .wb],
    -- ^(no class|class canceled|class cancelled)\b
    RE.cat [.bos, RE.words ["no class", "class canceled", "class cancelled"],
      .wb] ]

/-- Medium instruction indicators (+2 each). -/
def instrMediumPatterns : List RE :=
  [ -- \boffice\s*hours?\b
    RE.cat [.wb, RE.lit "office", .star isPySpace, RE.lit "hour",
      .opt (.ch 's'), .wb],
    -- \d{1,2}:\d{2}\s*[-–to]+\s*\d{1,2}:\d{2}
    RE.cat [.rep isDigitC 1 (some 2), .ch ':', .rep isDigitC 2 (some 2),
      .star isPySpace, .plus (fun c => c = '-' || c = '–' || c = 't' || c = 'o'),
      .star isPySpace, .rep isDigitC 1 (some 2), .ch ':', .rep isDigitC 2 (some 2)],
    -- \b(monday|tuesday|wednesday|thursday|friday|saturday|sunday)s?\s+\d
    RE.cat [.wb, RE.words ["monday", "tuesday", "wednesday", "thursday",
      "friday", "saturday", "sunday"], .opt (.ch 's'), .plus isPySpace, dC],
    -- \b(due|submit|by|before)\s*(:|on|by)?\s*(jan|feb|mar|apr|may|jun|jul|aug|sep|oct|nov|dec|\d{1,2}/)
    RE.cat [.wb, RE.words ["due", "submit", "by", "before"], .star isPySpace,
      .opt (RE.alts [.ch ':', RE.lit "on", RE.lit "by"]), .star isPySpace,
      RE.alts [RE.lit "jan", RE.lit "feb", RE.lit "mar", RE.lit "apr",
        RE.lit "may", RE.lit "jun", RE.lit "jul", RE.lit "aug", RE.lit "sep",
        RE.lit "oct", RE.lit "nov", RE.lit "dec",
        RE.cat [.rep isDigitC 1 (some 2), .ch '/']]],
    -- \b\d+\s*(%|percent|points?)\b
    RE.cat [.wb, .plus isDigitC, .star isPySpace,
      RE.alts [.ch '%', RE.lit "percent", RE.cat [RE.lit "point", .opt (.ch 's')]],
      .wb],
    -- \b(grade|grading|evaluation|attendance|participation)\b
    RE.cat [.wb, RE.words ["grade", "grading", "evaluation", "attendance",
      "participation"], .wb],
    -- \b(on canvas|on blackboard|on moodle|on courseworks|course reserve)\b
    RE.cat [.wb, RE.words ["on canvas", "on blackboard", "on moodle",
      "on courseworks", "course reserve"], .wb],
    -- \b(in person|in-person|zoom|virtual|hybrid)\b
    RE.cat [.wb, RE.words ["in person", "in-person", "zoom", "virtual",
      "hybrid"], .wb],
    -- \b(film screening|movie:|watch:|view:|listen to)\b
    RE.cat [.wb, RE.words ["film screening", "movie:", "watch:", "view:",
      "listen to"], .wb],
    -- \b(response paper|reflection|blog post|discussion post|group project|presentation)\b
    RE.cat [.wb, RE.words ["response paper", "reflection", "blog post",
      "discussion post", "group project", "presentation"], .wb] ]

/-- Weak instruction indicators (+1 each). -/
def instrWeakPatterns : List RE :=
  [ -- \b(tba|tbd|to be announced|to be determined)\b
    RE.cat [.wb, RE.words ["tba", "tbd", "to be announced",
      "to be determined"], .wb],
    -- \b(see |refer to|check |visit )\b
    RE.cat [.wb, RE.words ["see ", "refer to", "check ", "visit "], .wb],
    -- \b(available on|available at|posted on)\b
    RE.cat [.wb, RE.words ["available on", "available at", "posted on"], .wb],
    -- \b(professor |prof\.|prof |dr\.|dr |instructor:)\b
    RE.cat [.wb, RE.words ["professor ", "prof.", "prof ", "dr.", "dr ",
      "instructor:"], .wb],
    -- \b(classroom|room |location:|class time|meeting time)\b
    RE.cat [.wb, RE.words ["classroom", "room ", "location:", "class time",
      "meeting time"], .wb],
    -- \b(this week|this class|today we|we will|we are)\b
    RE.cat [.wb, RE.words ["this week", "this class", "today we", "we will",
      "we are"], .wb],
    -- \b(in class|for class|before class|after class)\b
    RE.cat [.wb, RE.words ["in class", "for class", "before class",
      "after class"], .wb] ]

/-- Negative instruction indicators with their penalties. -/
def instrNegativePatterns : List (RE × Int) :=
  [ -- ^[A-Z][a-z]+(?:\s+(?:and|&)\s+[A-Z][a-z]+)?\s*[\(,]\s*\d{4}
    (RE.cat [.bos, upC, .plus isLowerC,
       .opt (RE.cat [.plus isPySpace, .alt (RE.lit "and") (RE.ch '&'),
         .plus isPySpace, upC, .plus isLowerC]),
       .star isPySpace, .anyOf "(,", .star isPySpace, .rep isDigitC 4 (some 4)],
     -3),
    -- \bpp?\.?\s*\d+[-–]?\d*
    (RE.cat [.wb, .ch 'p', .opt (.ch 'p'), .opt (.ch '.'), .star isPySpace,
       .plus isDigitC, .opt (RE.anyOf "-–"), .star isDigitC], -2),
    -- \b(journal|quarterly|review|studies|proceedings)\s+of\b
    (RE.cat [.wb, RE.words ["journal", "quarterly", "review", "studies",
       "proceedings"], .plus isPySpace, RE.lit "of", .wb], -2),
    -- \b(university press|oxford|cambridge|routledge|sage|springer)\b
    (RE.cat [.wb, RE.words ["university press", "oxford", "cambridge",
       "routledge", "sage", "springer"], .wb], -2),
    -- \b(isbn|doi)\b|doi\.org
    (.alt (RE.cat [.wb, RE.words ["isbn", "doi"], .wb]) (RE.lit "doi.org"),
     -2) ]

def countSearch (ps : List RE) (t : Str) : Int :=
  ((ps.filter (fun p => reSearchB p t)).length : Int)

/-- The source's `get_instruction_score` in the analyzer-unavailable
configuration (no NLP contributions); returns the score (the reason
strings are audit output and never influence the score). -/
def getInstructionScore (text0 : Str) : Int :=
  let text := strip text0
  let tc := stripLeadingBullets text
  let tl := lowerStr tc
  let cd : Int := if isCourseDescription text then 4 else 0
  let st : Int := 3 * countSearch instrStrongPatterns tl
  let md : Int := 2 * countSearch instrMediumPatterns tl
  let wk : Int := 1 * countSearch instrWeakPatterns tl
  let ng : Int := instrNegativePatterns.foldl
    (fun a pr => if reSearchB pr.1 tl then a + pr.2 else a) 0
  cd + st + md + wk + ng

/-! ### get_reading_score -/

/-- Case-insensitive `\b...\b` literal. -/
def RE.blitci (w : String) : RE := RE.cat [.wb, RE.litci w, .wb]

/-- Strong reading indicators (+3 each), searched with `re.I` in the
cleaned text, so `[A-Z]` and `[a-z]` both match any ASCII letter. -/
def readingStrongPatterns : List RE :=
  [ -- ^[A-Z][a-z]+(?:\s+(?:and|&)\s+[A-Z][a-z]+)?\s*[\(,]\s*\d{4}
    RE.cat [.bos, alC, .plus isAlphaC,
      .opt (RE.cat [.plus isPySpace, .alt (RE.litci "and") (RE.ch '&'),
        .plus isPySpace, alC, .plus isAlphaC]),
      .star isPySpace, .anyOf "(,", .star isPySpace, .rep isDigitC 4 (some 4)],
    -- ^[A-Z][a-z]+\s+et\s+al\.?\s*[\(,]?\s*\d{4}
    RE.cat [.bos, alC, .plus isAlphaC, .plus isPySpace, RE.litci "et",
      .plus isPySpace, RE.litci "al", .opt (.ch '.'), .star isPySpace,
      .opt (RE.anyOf "(,"), .star isPySpace, .rep isDigitC 4 (some 4)],
    -- ^[A-Z][a-z]+,\s*[A-Z][a-z\.]+\s*[\(,]\s*\d{4}
    RE.cat [.bos, alC, .plus isAlphaC, .ch ',', .star isPySpace, alC,
      .plus (fun c => isAlphaC c || c = '.'), .star isPySpace, .anyOf "(,",
      .star isPySpace, .rep isDigitC 4 (some 4)],
    -- ["“][^"”]{20,}["”]
    RE.cat [.cls (fun c => c = '"' || c = '“'),
      .rep (fun c => !(c = '"' || c = '”')) 20 none,
      .cls (fun c => c = '"' || c = '”')] ]

/-- Medium reading indicators (+1 each), `re.I`. -/
def readingMediumPatterns : List RE :=
  [ -- \(\d{4}\)
    yearParenRE,
    -- ,\s*\d{4}[,.\s$]  ($ inside a class is a literal dollar)
    RE.cat [.ch ',', .star isPySpace, .rep isDigitC 4 (some 4),
      .cls (fun c => c = ',' || c = '.' || isPySpace c || c = '$')],
    -- pp?\.?\s*\d+[-–]?\d*
    RE.cat [.chci 'p', .opt (.chci 'p'), .opt (.ch '.'), .star isPySpace,
      .plus isDigitC, .opt (RE.anyOf "-–"), .star isDigitC],
    -- vol\.?\s*\d+
    RE.cat [RE.litci "vol", .opt (.ch '.'), .star isPySpace, .plus isDigitC],
    -- no\.?\s*\d+
    RE.cat [RE.litci "no", .opt (.ch '.'), .star isPySpace, .plus isDigitC],
    -- \bch(?:apter)?\.?\s*\d+
    RE.cat [.wb, RE.litci "ch", .opt (RE.litci "apter"), .opt (.ch '.'),
      .star isPySpace, .plus isDigitC],
    -- ["\x27“”].{15,}["\x27“”]
    RE.cat [.cls (fun c => c = '"' || c = apos || c = '“' || c = '”'),
      .rep (fun c => c ≠ '\n') 15 none,
      .cls (fun c => c = '"' || c = apos || c = '“' || c = '”')],
    -- \b[Ee]d(?:s|ited)?\.?\s*(?:by)?\s*[A-Z]
    RE.cat [.wb, .chci 'e', .chci 'd',
      .opt (.alt (RE.chci 's') (RE.litci "ited")), .opt (.ch '.'),
      .star isPySpace, .opt (RE.litci "by"), .star isPySpace, alC],
    -- \b[Tt]rans(?:lated)?\.?\s*(?:by)?\s*[A-Z]
    RE.cat [.wb, RE.litci "trans", .opt (RE.litci "lated"), .opt (.ch '.'),
      .star isPySpace, .opt (RE.litci "by"), .star isPySpace, alC],
    -- [Uu]niversity\s+[Pp]ress
    RE.cat [RE.litci "university", .plus isPySpace, RE.litci "press"],
    -- [Jj]ournal\s+of\s+[A-Z]
    RE.cat [RE.litci "journal", .plus isPySpace, RE.litci "of",
      .plus isPySpace, alC],
    -- \b(?:Quarterly|Review|Studies|Bulletin|Proceedings)\s+(?:of\s+)?[A-Z]
    RE.cat [.wb, RE.wordsci ["Quarterly", "Review", "Studies", "Bulletin",
      "Proceedings"], .plus isPySpace,
      .opt (RE.cat [RE.litci "of", .plus isPySpace]), alC],
    -- \b(?:Oxford|Cambridge|Routledge|Sage|Springer|Wiley|Penguin|Harvard|Yale|Princeton)\b
    RE.cat [.wb, RE.wordsci ["Oxford", "Cambridge", "Routledge", "Sage",
      "Springer", "Wiley", "Penguin", "Harvard", "Yale", "Princeton"], .wb],
    -- \b(?:ISBN|DOI)\b|doi\.org|doi:\s*10\.
    RE.alts [RE.cat [.wb, RE.wordsci ["ISBN", "DOI"], .wb],
      RE.litci "doi.org",
      RE.cat [RE.litci "doi:", .star isPySpace, RE.lit "10."]],
    -- \(\d+\):\s*\d+[-–]?\d*
    RE.cat [.ch '(', .plus isDigitC, .ch ')', .ch ':', .star isPySpace,
      .plus isDigitC, .opt (RE.anyOf "-–"), .star isDigitC],
    -- \bIn:\s+[A-Z][a-z]+
    RE.cat [.wb, RE.litci "in:", .plus isPySpace, alC, .plus isAlphaC],
    -- \bed\.\s+by\s+[A-Z]|\bedited\s+by\s+[A-Z]
    RE.alts [RE.cat [.wb, RE.litci "ed.", .plus isPySpace, RE.litci "by",
        .plus isPySpace, alC],
      RE.cat [.wb, RE.litci "edited", .plus isPySpace, RE.litci "by",
        .plus isPySpace, alC]],
    -- excerpts?\s+from|selections?\s+from
    RE.alts [RE.cat [RE.litci "excerpt", .opt (.chci 's'), .plus isPySpace,
        RE.litci "from"],
      RE.cat [RE.litci "selection", .opt (.chci 's'), .plus isPySpace,
        RE.litci "from"]] ]

/-- Negative reading indicators with penalties, `re.I`. -/
def readingNegativePatterns : List (RE × Int) :=
  [ -- ^(https?://|www\.)\S+$
    (RE.cat [.bos,
       .alt (RE.cat [RE.litci "http", .opt (.chci 's'), RE.lit "://"])
         (RE.cat [RE.litci "www", .ch '.']),
       .plus (fun c => !isPySpace c), .eos], -2),
    -- ^\d+\s*(%|percent|points?)
    (RE.cat [.bos, .plus isDigitC, .star isPySpace,
       RE.alts [.ch '%', RE.litci "percent",
         RE.cat [RE.litci "point", .opt (.chci 's')]]], -2),
    -- ^(Monday|Tuesday|Wednesday|Thursday|Friday|Saturday|Sunday)\b
    (RE.cat [.bos, RE.wordsci ["Monday", "Tuesday", "Wednesday", "Thursday",
       "Friday", "Saturday", "Sunday"], .wb], -2),
    -- ^\d{1,2}[:/]\d{2}
    (RE.cat [.bos, .rep isDigitC 1 (some 2), .anyOf ":/",
       .rep isDigitC 2 (some 2)], -2),
    (RE.blitci "this course", -3),
    (RE.blitci "the course", -3),
    (RE.blitci "this class", -3),
    (RE.blitci "students will", -3),
    (RE.blitci "students learn", -3),
    (RE.blitci "we will", -2),
    (RE.blitci "office hours", -3),
    -- \d{1,2}:\d{2}\s*[-–]\s*\d{1,2}:\d{2}
    (RE.cat [.rep isDigitC 1 (some 2), .ch ':', .rep isDigitC 2 (some 2),
       .star isPySpace, .anyOf "-–", .star isPySpace, .rep isDigitC 1 (some 2),
       .ch ':', .rep isDigitC 2 (some 2)], -2),
    -- \bwhat is\b.*\?
    (RE.cat [.wb, RE.litci "what is", .wb, .star (fun c => c ≠ '\n'),
       .ch '?'], -2),
    -- \bhow do\b.*\?
    (RE.cat [.wb, RE.litci "how do", .wb, .star (fun c => c ≠ '\n'),
       .ch '?'], -2),
    (RE.blitci "in person", -2) ]

/-- The source's `get_reading_score` in the analyzer-unavailable
configuration: regex rule table, author-start bonus, length bonus, and
negative rules; the reason strings never influence the score (and the
NLP-person guard on the author bonus is vacuous without the analyzer). -/
def getReadingScore (text0 : Str) : Int :=
  let text := strip text0
  let tc := stripLeadingBullets text
  let st : Int := 3 * countSearch readingStrongPatterns tc
  let md : Int := 1 * countSearch readingMediumPatterns tc
  let au : Int := if looksLikeAuthor tc then 2 else 0
  let ln : Int := if 80 < tc.length then 1 else 0
  let ng : Int := readingNegativePatterns.foldl
    (fun a pr => if reSearchB pr.1 tc then a + pr.2 else a) 0
  st + md + au + ln + ng

/-! ### is_header and is_week_header -/

/-- Course-code pattern `^[A-Z]{2,5}\s*\d{2,4}[:\s\-]`, matched against
`text.strip()`. -/
def courseCodeRE : RE := RE.cat [.rep isUpperC 2 (some 5), .star isPySpace,
  .rep isDigitC 2 (some 4), .cls (fun c => c = ':' || isPySpace c || c = '-')]

/-- Semester in brackets: `\[(spring|fall|summer|winter)\s+\d{4}\]`. -/
def bracketTermRE : RE := RE.cat [.ch '[',
  RE.words ["spring", "fall", "summer", "winter"], .plus isPySpace,
  .rep isDigitC 4 (some 4), .ch ']']

/-- Semester in parentheses: `\((spring|fall|summer|winter)\s+\d{4}\)`. -/
def parenTermRE : RE := RE.cat [.ch '(',
  RE.words ["spring", "fall", "summer", "winter"], .plus isPySpace,
  .rep isDigitC 4 (some 4), .ch ')']

/-- Week-header branch `^week\s*\d+` on the cleaned lowered text (the
whitespace and digit classes are disjoint, so the greedy match is a
whitespace run followed by a digit). -/
def weekBranch : Str → Bool
  | 'w' :: 'e' :: 'e' :: 'k' :: r =>
    match r.dropWhile isPySpace with
    | c :: _ => isDigitC c
    | [] => false
  | _ => false

/-- Session headers:
`^(session|class|module|unit|part|section|lecture|seminar|meeting|day)\s*\d+`. -/
def sessionRE : RE := RE.cat [RE.words ["session", "class", "module", "unit",
  "part", "section", "lecture", "seminar", "meeting", "day"],
  .star isPySpace, .plus isDigitC]

/-- Month-day headers:
`^(january|...|december|jan|...|dec)\.?\s+\d{1,2}`. -/
def monthRE : RE := RE.cat [RE.words ["january", "february", "march", "april",
  "may", "june", "july", "august", "september", "october", "november",
  "december", "jan", "feb", "mar", "apr", "may", "jun", "jul", "aug", "sep",
  "sept", "oct", "nov", "dec"],
  .opt (.ch '.'), .plus isPySpace, .rep isDigitC 1 (some 2)]

/-- Slash dates `^\d{1,2}/\d{1,2}(/\d{2,4})?$`. -/
def slashDateRE : RE := RE.cat [.rep isDigitC 1 (some 2), .ch '/',
  .rep isDigitC 1 (some 2),
  .opt (RE.cat [.ch '/', .rep isDigitC 2 (some 4)]), .eos]

/-- Day-of-week headers `^(monday|tuesday|...|sunday)`. -/
def dayOfWeekRE : RE := RE.words ["monday", "tuesday", "wednesday",
  "thursday", "friday", "saturday", "sunday"]

/-- The closed header keyword set; a keyword matches exactly, or with a
colon suffix, or with a space-dash suffix. -/
def headerKeywords : List String :=
  ["introduction", "overview", "conclusion", "review", "midterm", "final",
   "exam", "break", "holiday", "no class", "thanksgiving", "spring break",
   "readings", "required readings", "recommended readings",
   "optional readings", "assignments", "topics", "schedule", "theme",
   "topic", "course policies", "policies", "grading", "grade breakdown",
   "office hours", "contact", "instructor", "professor", "ta ",
   "teaching assistant", "course objectives", "learning objectives",
   "course description", "description", "prerequisites", "materials",
   "required materials", "textbooks", "books", "resources"]

def keywordBranch (tc : Str) : Bool :=
  headerKeywords.any (fun kw =>
    tc = kw.data || (kw.data ++ [':']).isPrefixOf tc ||
    (kw.data ++ [' ', '-']).isPrefixOf tc)

/-- Python `str.isupper` over the ASCII fragment: at least one cased
character and no lowercase one. -/
def isUpperPy (l : Str) : Bool :=
  l.any isUpperC && l.all (fun c => !isLowerC c)

def isIVX (c : Char) : Bool := c = 'I' || c = 'V' || c = 'X'

/-- Roman-numeral list markers `^[IVX]+\.\s` (the numeral run is maximal
since the classes are disjoint). -/
def romanBranch (t : Str) : Bool :=
  let r := t.takeWhile isIVX
  0 < r.length &&
    match t.drop r.length with
    | '.' :: c :: _ => isPySpace c
    | _ => false

/-- The source's `is_header`: the eleven structural checks in source
order, over the lowered stripped text and its bullet-cleaned form (the
course-code, all-caps, trailing-colon and roman checks use the raw or
merely stripped text, as in the source). -/
def isHeader (text : Str) : Bool :=
  let tl := strip (lowerStr text)
  let tc := stripLeadingBullets tl
  reMatchB courseCodeRE (strip text) ||
  reSearchB bracketTermRE tl ||
  reSearchB parenTermRE tl ||
  weekBranch tc ||
  reMatchB sessionRE tc ||
  reMatchB monthRE tc ||
  reMatchB slashDateRE tc ||
  reMatchB dayOfWeekRE tc ||
  keywordBranch tc ||
  (text.length < 60 && isUpperPy (text.filter (fun c => c ≠ ' ')) &&
    3 < text.length) ||
  (text.length < 40 && text.getLast? == some ':') ||
  romanBranch text

def natOfDigits (ds : Str) : Nat :=
  ds.foldl (fun a c => 10 * a + (c.toNat - 48)) 0

/-- The source's `is_week_header`: `re.match(r'^\s*week\s+(\d+)', text, re.I)`,
returning the integer value of the digit group. -/
def isWeekHeader (text : Str) : Option Nat :=
  match text.dropWhile isPySpace with
  | w :: e1 :: e2 :: k :: rest =>
    if pyLower w = 'w' && pyLower e1 = 'e' && pyLower e2 = 'e' &&
        pyLower k = 'k' then
      match rest with
      | c :: r2 =>
        if isPySpace c then
          let digits := (r2.dropWhile isPySpace).takeWhile isDigitC
          if 0 < digits.length then some (natOfDigits digits) else none
        else none
      | [] => none
    else none
  | _ => none

/-! ### is_instruction and is_reading -/

/-- The source's `is_instruction`: strip, length gate, score, header
exclusion, then the score threshold. -/
def isInstruction (text0 : Str) : Bool :=
  let text := strip text0
  if text.length < 15 then false
  else
    let score := getInstructionScore text
    if isHeader text then false
    else 3 ≤ score

/-- The source's `is_reading`: strip, length gate, header and
instruction exclusion, then the reading-score threshold. -/
def isReading (text0 : Str) : Bool :=
  let text := strip text0
  if text.length < 20 then false
  else if isHeader text || isInstruction text then false
  else 3 ≤ getReadingScore text

/-! ### Boundary classifier: is_incomplete_line, is_continuation_line -/

/-- The continuation-suggesting endings list of `is_incomplete_line`,
tested with `str.endswith` on the lowered text. -/
def incompleteEndings : List String :=
  [" in", " in:", " the", " a", " an", " and", " or", " of", " for", " to",
   " by", " from", " with", " on", " at", " as", ",", ":", ";",
   " vol", " vol.", " pp", " pp.", " ed", " ed.", " eds", " eds.",
   " trans", " trans.", " chapter", " ch", " ch.", "&",
   " new", " york", " cambridge", " oxford", " london", " chicago"]

/-- Pattern `\s[A-Z][a-z]+$`. -/
def capEndRE : RE := RE.cat [wsC, upC, .plus isLowerC, .eos]

/-- Pattern `\.\s*[A-Z][a-z]+$`. -/
def dotCapEndRE : RE := RE.cat [.ch '.', .star isPySpace, upC,
  .plus isLowerC, .eos]

/-- The source's `is_incomplete_line` (analyzer unavailable, so the
sentence-completeness check is skipped): ends with a continuation token,
an open quote, a hyphenated break, a capitalized word not after a
period, or lacks terminal punctuation while showing reading shape. -/
def isIncompleteLine (text0 : Str) : Bool :=
  let text := strip text0
  if text.length = 0 then false
  else
    let tl := lowerStr text
    if incompleteEndings.any (fun e => e.data.isSuffixOf tl) then true
    else if text.getLast? == some '"' || text.getLast? == some apos ||
        text.getLast? == some '“' then true
    -- [a-z]-$
    else if (match text.reverse with
             | '-' :: c :: _ => isLowerC c
             | _ => false) then true
    else if reSearchB capEndRE text && !(text.getLast? == some '.') &&
        !(reSearchB dotCapEndRE text) then true
    -- [.!?)\]\d]$ absent, plus reading-like shape
    else if !(match text.getLast? with
              | some c => c = '.' || c = '!' || c = '?' || c = ')' ||
                  c = ']' || isDigitC c
              | none => false) &&
        (looksLikeAuthor text || reSearchB yearParenRE text ||
         text.any (fun c => c = '"' || c = '“' || c = '”')) then true
    else false

/-- `^(Vol\.?|Volume|pp?\.?|Issue|No\.?|Chapter|Ch\.?)\s*\d` with `re.I`. -/
def volStartRE : RE := RE.cat
  [RE.alts [RE.cat [RE.litci "vol", .opt (.ch '.')], RE.litci "volume",
    RE.cat [.chci 'p', .opt (.chci 'p'), .opt (.ch '.')], RE.litci "issue",
    RE.cat [RE.litci "no", .opt (.ch '.')], RE.litci "chapter",
    RE.cat [RE.litci "ch", .opt (.ch '.')]],
   .star isPySpace, dC]

/-- `^\d+\s*[-–:\(\)]`. -/
def numStartRE : RE := RE.cat [.plus isDigitC, .star isPySpace,
  RE.anyOf "-–:()"]

/-- `^\(\d+\)`. -/
def parenNumRE : RE := RE.cat [.ch '(', .plus isDigitC, .ch ')']

def journalStarts : List String :=
  ["Journal", "Quarterly", "Review", "Studies", "Research", "Bulletin",
   "Proceedings", "American", "British", "International", "Annual",
   "European", "Canadian", "Australian", "African", "Asian", "Latin",
   "Social", "Cultural", "Political", "Economic", "Historical",
   "Inquiry", "Analysis", "Perspectives", "Theory", "Practice",
   "Signs", "Gender", "Feminist", "Women", "Men", "Sexuality"]

def publisherStarts : List String :=
  ["Oxford", "Cambridge", "Routledge", "Sage", "Springer", "Wiley",
   "University", "Press", "Books", "Publishing", "Publishers",
   "Harper", "Random", "Penguin", "Basic", "Free", "Duke", "MIT",
   "Harvard", "Yale", "Princeton", "Stanford", "Chicago", "California",
   "New York", "London", "Boston", "Philadelphia"]

/-- `^(ed\.|eds\.|trans\.|translated)` with `re.I`. -/
def edStartRE : RE := RE.alts [RE.litci "ed.", RE.litci "eds.",
  RE.litci "trans.", RE.litci "translated"]

/-- `^(and|or|in|of|for|the|a|an)\s` with `re.I`. -/
def contWordRE : RE := RE.cat [RE.wordsci ["and", "or", "in", "of", "for",
  "the", "a", "an"], wsC]

/-- `^[\d\s\-–:,\(\)\.]+$`. -/
def pureNumPunctRE : RE := RE.cat
  [.plus (fun c => isDigitC c || isPySpace c || c = '-' || c = '–' ||
     c = ':' || c = ',' || c = '(' || c = ')' || c = '.'), .eos]

/-- `^\d+[-–]\d+\.?$`. -/
def pageRangeRE : RE := RE.cat [.plus isDigitC, RE.anyOf "-–",
  .plus isDigitC, .opt (.ch '.'), .eos]

/-- `^[A-Z][a-z]+[,\s]+(?:[A-Z]|and|\(|\d{4})`. -/
def authorShapeRE : RE := RE.cat [upC, .plus isLowerC,
  .plus (fun c => c = ',' || isPySpace c),
  RE.alts [upC, RE.lit "and", .ch '(', .rep isDigitC 4 (some 4)]]

/-- `^[A-Z][a-z]+`. -/
def capWordRE : RE := RE.cat [upC, .plus isLowerC]

/-- `^[A-Z][a-z]+\s*[\(,]\s*\d{4}`. -/
def authorYearStartRE : RE := RE.cat [upC, .plus isLowerC, .star isPySpace,
  .anyOf "(,", .star isPySpace, .rep isDigitC 4 (some 4)]

/-- The source's `is_continuation_line` (analyzer unavailable, so the
new-person guard is skipped). -/
def isContinuationLine (text0 : Str) : Bool :=
  let text := strip text0
  if text.length = 0 then false
  else if (match text.head? with
           | some c => isLowerC c
           | none => false) then true
  else if reMatchB volStartRE text then true
  else if reMatchB numStartRE text then true
  else if reMatchB parenNumRE text then true
  else if journalStarts.any (fun j => j.data.isPrefixOf text) then true
  else if publisherStarts.any (fun p => p.data.isPrefixOf text) then true
  else if text.head? == some '"' || text.head? == some apos ||
      text.head? == some '”' || text.head? == some ')' then true
  else if reMatchB edStartRE text then true
  else if reMatchB contWordRE text then true
  else if text.length < 40 &&
      (reMatchB pureNumPunctRE text || reMatchB pageRangeRE text) then true
  else if !(reMatchB authorShapeRE text) && reMatchB capWordRE text &&
      !(reMatchB authorYearStartRE text) then true
  else false

/-! ### should_merge_lines and merge_fragmented_lines -/

/-- `^[A-Z][a-z]+(?:,\s*[A-Z]\.?)?\s*\(\d{4}\)`. -/
def newCiteRE : RE := RE.cat [upC, .plus isLowerC,
  .opt (RE.cat [.ch ',', .star isPySpace, upC, .opt (.ch '.')]),
  .star isPySpace, .ch '(', .rep isDigitC 4 (some 4), .ch ')']

/-- `^[A-Z][a-z]+.*\(\d{4}\)`. -/
def capThenYearRE : RE := RE.cat [upC, .plus isLowerC,
  .star (fun c => c ≠ '\n'), .ch '(', .rep isDigitC 4 (some 4), .ch ')']

/-- `^(Vol|pp?|Issue|\d)` with `re.I`. -/
def volPageStartRE : RE := RE.alts [RE.litci "vol",
  RE.cat [.chci 'p', .opt (.chci 'p')], RE.litci "issue", dC]

/-- `^[\w\s,]+,?\s*(Vol\.?|pp?\.?|Issue)?\s*\d` with `re.I`. -/
def shortCiteRE : RE := RE.cat
  [.plus (fun c => isWordC c || isPySpace c || c = ','), .opt (.ch ','),
   .star isPySpace,
   .opt (RE.alts [RE.cat [RE.litci "vol", .opt (.ch '.')],
     RE.cat [.chci 'p', .opt (.chci 'p'), .opt (.ch '.')], RE.litci "issue"]),
   .star isPySpace, dC]

/-- The source's `should_merge_lines` (analyzer unavailable: the spaCy
person guard, sentence-combination rule and lowercase-continuation rule
are skipped). -/
def shouldMergeLines (prev next : Str) : Bool :=
  if reMatchB newCiteRE next then false
  else if looksLikeAuthor next && reSearchB yearParenRE (next.take 50) then
    false
  else if (match prev.getLast? with
           | some c => c = '.' || c = '!' || c = '?' || c = ')' ||
               c = ']' || c = '”' || c = '"'
           | none => false) && reMatchB capThenYearRE next then false
  else if isIncompleteLine prev && isContinuationLine next then true
  else if isIncompleteLine prev && reMatchB volPageStartRE next then true
  else if next.length < 50 && reMatchB shortCiteRE next &&
      isIncompleteLine prev then true
  else false

structure RawLine where
  text : Str
  start : Nat
  stop : Nat
deriving Repr, DecidableEq

structure MUnit where
  text : Str
  full_text : Str
  start : Nat
  stop : Nat
deriving Repr, DecidableEq

/-- Display truncation `text[:80] + (...)`. -/
def displayTrunc (l : Str) : Str :=
  l.take 80 ++ (if 80 < l.length then "...".data else [])

/-- The single left-to-right fold of `merge_fragmented_lines`: skip
whitespace-only fragments, join with a single space when
`should_merge_lines` fires (extending the end position), otherwise close
the accumulator and start a new unit. -/
def mergeAux : Option MUnit → List RawLine → List MUnit
  | cur, [] =>
    (match cur with
     | some c => [c]
     | none => [])
  | cur, item :: rest =>
    let t := strip item.text
    if t.length = 0 then mergeAux cur rest
    else
      match cur with
      | none => mergeAux (some ⟨item.text, t, item.start, item.stop⟩) rest
      | some c =>
        if shouldMergeLines c.full_text t then
          let ft := c.full_text ++ ' ' :: t
          mergeAux (some ⟨displayTrunc ft, ft, c.start, item.stop⟩) rest
        else
          c :: mergeAux (some ⟨item.text, t, item.start, item.stop⟩) rest

def mergeFragmentedLines (lines : List RawLine) : List MUnit :=
  mergeAux none lines

/-! ### find_split_points -/

/-- Lookbehind class `[.!?)\]"\x27\s]` shared by the first four
split-point patterns. -/
def splitBehind (c : Char) : Bool :=
  c = '.' || c = '!' || c = '?' || c = ')' || c = ']' || c = '"' ||
  c = apos || isPySpace c

/-- The five `find_split_points` patterns, in source order. -/
def splitPointPatterns : List RE :=
  [ -- (?<=[.!?)\]"\x27\s])\s*(\d{1,2})[.\)]\s+(?=[A-Z])
    RE.cat [.lookb splitBehind, .star isPySpace, .rep isDigitC 1 (some 2),
      .anyOf ".)", .plus isPySpace, .look upC],
    -- (?<=[.!?)\]"\x27\s])\s*\((\d{1,2})\)\s*(?=[A-Z])
    RE.cat [.lookb splitBehind, .star isPySpace, .ch '(',
      .rep isDigitC 1 (some 2), .ch ')', .star isPySpace, .look upC],
    -- (?<=[.!?)\]"\x27\s])\s*([a-zA-Z])[.\)]\s+(?=[A-Z])
    RE.cat [.lookb splitBehind, .star isPySpace, alC, .anyOf ".)",
      .plus isPySpace, .look upC],
    -- (?<=[.!?)\]"\x27\s])\s*([•\-\*◦])\s+(?=[A-Z])
    RE.cat [.lookb splitBehind, .star isPySpace, RE.anyOf "•-*◦",
      .plus isPySpace, .look upC],
    -- (?<=[.;!?])\s+(?=[A-Z][a-z]+(?:,\s*[A-Z]\.?)?\s*(?:et al\.?)?\s*\(\d{4})
    RE.cat [.lookb (fun c => c = '.' || c = ';' || c = '!' || c = '?'),
      .plus isPySpace,
      .look (RE.cat [upC, .plus isLowerC,
        .opt (RE.cat [.ch ',', .star isPySpace, upC, .opt (.ch '.')]),
        .star isPySpace,
        .opt (RE.cat [RE.lit "et", .ch ' ', RE.lit "al", .opt (.ch '.')]),
        .star isPySpace, .ch '(', .rep isDigitC 4 (some 4)])] ]

/-- Candidate positions: match starts of the five patterns (pattern by
pattern, `finditer` non-overlap within each), kept when more than 10
characters precede. -/
def collectSplitPoints (t : Str) : List Nat :=
  (splitPointPatterns.flatMap (fun p => (reFindIter p t).map (fun m => m.1))).filter
    (fun pos => 10 < pos)

/-- Sorted-insert for `sorted(set(...))`. -/
def insD (x : Nat) : List Nat → List Nat
  | [] => [x]
  | y :: ys =>
    if x < y then x :: y :: ys
    else if x = y then y :: ys
    else y :: insD x ys

def sortedDedup (l : List Nat) : List Nat := l.foldr insD []

/-- The minimum-gap filter: keep a position when it is at least 30 past
the last kept one (the tracker starts at -30, so the first position is
always kept). -/
def gapFilter : List Nat → Int → List Nat
  | [], _ => []
  | p :: ps, last =>
    if 30 ≤ (p : Int) - last then p :: gapFilter ps p
    else gapFilter ps last

/-- The source's `find_split_points`. -/
def findSplitPoints (t : Str) : List Nat :=
  gapFilter (sortedDedup (collectSplitPoints t)) (-30)

/-! ### The classifier -/

inductive Cls where
  | tooShort
  | header
  | instruction
  | reading
  | maybeReading
  | unknown
deriving Repr, DecidableEq

/-- One classified item: the fields of the source's item dict that the
claims concern (the reason strings and the semantic fields of the
unavailable analyzer are omitted; `maybeReading` and `unknown` are the
two sub-kinds of the uncertain bucket). -/
structure Item where
  text : Str
  full_text : Str
  start : Nat
  stop : Nat
  week : Nat
  was_split : Bool
  score : Int
  instr_score : Int
  cls : Cls
deriving Repr, DecidableEq

/-- One step of `classify_single_text`; `recur` is the recursive call
used on split segments (week, text, start, stop; always marked split).
With the analyzer unavailable, `classify_text_type` returns the label
`unknown` with confidence 0.0, so every semantic-promotion branch is
skipped and the low-score fallthroughs are the uncertain sub-kinds. -/
def classifyStep (recur : Nat → Str → Nat → Nat → Nat × List Item)
    (week : Nat) (text : Str) (start stop : Nat) (isSplit : Bool) :
    Nat × List Item :=
  let score := getReadingScore text
  let instr := getInstructionScore text
  let item : Item :=
    ⟨displayTrunc text, text, start, stop, week, isSplit, score, instr,
      .unknown⟩
  if text.length < 20 then (week, [{item with cls := .tooShort}])
  else if isHeader text then
    match isWeekHeader text with
    | some w =>
      if w ≠ 0 then (w, [{item with cls := .header, week := w}])
      else (week, [{item with cls := .header}])
    | none => (week, [{item with cls := .header}])
  else if isInstruction text then (week, [{item with cls := .instruction}])
  else if 3 ≤ score then (week, [{item with cls := .reading}])
  else if 1 ≤ score then
    let parts := splitConcatenatedReadings text
    if 1 < parts.length then
      parts.foldl (fun acc seg =>
        let r := recur acc.1 (strip seg) start stop
        (r.1, acc.2 ++ r.2)) (week, [])
    else (week, [{item with cls := .maybeReading}])
  else
    let parts := splitConcatenatedReadings text
    if 1 < parts.length then
      parts.foldl (fun acc seg =>
        let r := recur acc.1 (strip seg) start stop
        (r.1, acc.2 ++ r.2)) (week, [])
    else (week, [{item with cls := .unknown}])

/-- `classify_single_text`, indexed by recursion fuel: the source
recursion terminates because each split strictly shortens the text; the
fuel only guards the recursive calls on split segments. -/
def classifySingle : Nat → Nat → Str → Nat → Nat → Bool → Nat × List Item
  | 0, week, text, start, stop, isSplit =>
    classifyStep (fun w _ _ _ => (w, [])) week text start stop isSplit
  | fuel + 1, week, text, start, stop, isSplit =>
    classifyStep (fun w t st sp => classifySingle fuel w t st sp true)
      week text start stop isSplit

/-- `(?:^|[.;]\s+)([A-Z][a-z]+)` of `classify_line`, counted with
`re.findall`. -/
def authorLikeRE : RE := RE.cat
  [.alt .bos (RE.cat [.anyOf ".;", .plus isPySpace]), upC, .plus isLowerC]

/-- The source's `classify_line`: long texts with several author-year
pairs or author-like sentence starts are split up front, everything else
goes through `classify_single_text`. -/
def classifyLine (fuel : Nat) (week : Nat) (u : MUnit) : Nat × List Item :=
  let text := u.full_text
  if 60 < text.length then
    let pairs := extractAuthorYearStarts text
    let alc := (reFindIter authorLikeRE text).length
    if 1 < pairs.length || 2 < alc then
      let parts := splitConcatenatedReadings text
      if 1 < parts.length then
        parts.foldl (fun acc seg =>
          let r := classifySingle fuel acc.1 (strip seg) u.start u.stop true
          (r.1, acc.2 ++ r.2)) (week, [])
      else classifySingle fuel week text u.start u.stop false
    else classifySingle fuel week text u.start u.stop false
  else classifySingle fuel week text u.start u.stop false

/-- `collect_raw_lines` on already-extracted records: strip, drop empty,
normalize. -/
def collectLines (raw : List RawLine) : List RawLine :=
  raw.filterMap (fun l =>
    let t := strip l.text
    if t.length = 0 then none
    else some ⟨normalizePdfText t, l.start, l.stop⟩)

/-- One classification run of `clean_syllabus` over one document:
collect and normalize, merge, then classify each merged unit in document
order, threading the week counter from 0. -/
def classifyDoc (fuel : Nat) (raw : List RawLine) : List Item :=
  ((mergeFragmentedLines (collectLines raw)).foldl (fun acc u =>
    let r := classifyLine fuel acc.1 u
    (r.1, acc.2 ++ r.2)) (0, ([] : List Item))).2

/-! ### Auxiliary definitions used by the specification statements -/

/-- Join texts with single spaces (the shape in which merge completeness
is stated: unit-internal join spaces and unit boundaries both become one
space). -/
def joinSpace : List Str → Str
  | [] => []
  | [x] => x
  | x :: xs => x ++ ' ' :: joinSpace xs

/-- The trimmed texts of the fragments that are non-empty after
trimming (the fragments the merger actually consumes). -/
def trimmedTexts (lines : List RawLine) : List Str :=
  (lines.map (fun l => strip l.text)).filter (fun t => t.length ≠ 0)

/-- The week-counter transition an already-classified item causes: a
header item whose text matches the week pattern with a nonzero number
sets the counter, every other item leaves it unchanged. -/
def weekUpd (w : Nat) (it : Item) : Nat :=
  if it.cls = .header then
    match isWeekHeader it.full_text with
    | some n => if n = 0 then w else n
    | none => w
  else w

/-- The week value in force after a prefix of the output, starting
from 0. -/
def weekAt (out : List Item) : Nat := out.foldl weekUpd 0

/-- The week-tagging invariant: every reading in the output is tagged
with the week value in force at its position, starting from `w`. -/
def WeekInv : Nat → List Item → Prop
  | _, [] => True
  | w, it :: rest =>
    (it.cls = .reading → it.week = w) ∧ WeekInv (weekUpd w it) rest

/-- Whitespace discipline after collapsing: every whitespace character
is a plain space and no two whitespace characters are adjacent. -/
def singleSpaced : Str → Bool
  | [] => true
  | c :: rest =>
    (!isPySpace c || c == ' ') &&
    (match rest with
     | d :: _ => !(isPySpace c && isPySpace d)
     | [] => true) &&
    singleSpaced rest

/-- Conservative matchability of a pattern inside the alphabet `S`:
when false, no string drawn from `S` can satisfy the pattern (every
character-consuming atom would need a character outside `S`). -/
def canMatchIn (S : List Char) : RE → Bool
  | .eps => true
  | .bos => true
  | .eos => true
  | .wb => true
  | .cls p => S.any p
  | .seq a b => canMatchIn S a && canMatchIn S b
  | .alt a b => canMatchIn S a || canMatchIn S b
  | .star _ => true
  | .plus p => S.any p
  | .rep p lo _ => if lo = 0 then true else S.any p
  | .opt _ => true
  | .look a => canMatchIn S a
  | .lookb p => S.any p

/-- Minimum-gap discipline of split points: consecutive entries differ
by at least 30. -/
def minGap30 : List Nat → Bool
  | [] => true
  | [_] => true
  | a :: b :: r => (a + 30 ≤ b) && minGap30 (b :: r)

/-! ## Theorems -/

/-! ### Strip and whitespace infrastructure -/

theorem dropWhile_append_all {p : Char → Bool} {a : Str} (b : Str)
    (h : ∀ c ∈ a, p c = true) : (a ++ b).dropWhile p = b.dropWhile p := by
  induction a with
  | nil => simp
  | cons c r ih =>
    have hc := h c (List.mem_cons_self c r)
    simp only [List.cons_append, List.dropWhile_cons, hc, if_true]
    exact ih (fun x hx => h x (List.mem_cons_of_mem _ hx))

theorem dropWhile_idem (p : Char → Bool) (l : Str) :
    (l.dropWhile p).dropWhile p = l.dropWhile p := by
  cases h : l.dropWhile p with
  | nil => simp
  | cons c r =>
    have h2 := List.head?_dropWhile_not p l
    rw [h] at h2
    simp only [List.head?_cons, Option.all_some] at h2
    simp [List.dropWhile_cons, h2]

theorem strip_ws_left {a : Str} (b : Str) (h : ∀ c ∈ a, isPySpace c = true) :
    strip (a ++ b) = strip b := by
  unfold strip
  rw [dropWhile_append_all b h]

theorem strip_all_ws {a : Str} (h : ∀ c ∈ a, isPySpace c = true) :
    strip a = [] := by
  unfold strip
  rw [List.dropWhile_eq_nil_iff.2 h]
  simp

theorem strip_ws_right {b u : Str} (h : ∀ c ∈ u, isPySpace c = true) :
    strip (b ++ u) = strip b := by
  unfold strip
  rw [List.dropWhile_append]
  by_cases hb : (b.dropWhile isPySpace).isEmpty
  · rw [if_pos hb]
    have hb' : b.dropWhile isPySpace = [] := by simpa [List.isEmpty_iff] using hb
    rw [List.dropWhile_eq_nil_iff.2 h, hb']
  · rw [if_neg hb, List.reverse_append,
      dropWhile_append_all _ (fun c hc => h c (List.mem_reverse.1 hc))]

theorem strip_decomp (t : Str) :
    ∃ p u, t = p ++ strip t ++ u ∧ (∀ c ∈ p, isPySpace c = true) ∧
      (∀ c ∈ u, isPySpace c = true) := by
  refine ⟨t.takeWhile isPySpace,
    ((t.dropWhile isPySpace).reverse.takeWhile isPySpace).reverse, ?_, ?_, ?_⟩
  · conv_lhs => rw [← List.takeWhile_append_dropWhile isPySpace t]
    rw [List.append_assoc]
    congr 1
    conv_lhs => rw [← List.reverse_reverse (t.dropWhile isPySpace)]
    conv_lhs =>
      rw [← List.takeWhile_append_dropWhile isPySpace
        (t.dropWhile isPySpace).reverse]
    rw [List.reverse_append]
    rfl
  · intro c hc
    have h2 : (t.takeWhile isPySpace).all isPySpace = true :=
      List.all_takeWhile
    exact List.all_eq_true.1 h2 c hc
  · intro c hc
    rw [List.mem_reverse] at hc
    have h2 : ((t.dropWhile isPySpace).reverse.takeWhile isPySpace).all
        isPySpace = true := List.all_takeWhile
    exact List.all_eq_true.1 h2 c hc

theorem strip_idem (t : Str) : strip (strip t) = strip t := by
  obtain ⟨p, u, ht, hp, hu⟩ := strip_decomp t
  conv_rhs => rw [ht]
  rw [List.append_assoc, strip_ws_left _ hp, strip_ws_right hu]

theorem strip_length_le (t : Str) : (strip t).length ≤ t.length := by
  obtain ⟨p, u, ht, _, _⟩ := strip_decomp t
  conv_rhs => rw [ht]
  simp only [List.length_append]
  omega

theorem mem_of_mem_strip {t : Str} {c : Char} (h : c ∈ strip t) : c ∈ t := by
  obtain ⟨p, u, ht, _, _⟩ := strip_decomp t
  rw [ht]
  simp [h]

theorem mem_strip_of_not_ws {t : Str} {c : Char} (hc : c ∈ t)
    (hw : isPySpace c = false) : c ∈ strip t := by
  obtain ⟨p, u, ht, hp, hu⟩ := strip_decomp t
  rw [ht] at hc
  rcases List.mem_append.1 hc with h1 | h1
  · rcases List.mem_append.1 h1 with h2 | h2
    · rw [hp c h2] at hw; cases hw
    · exact h2
  · rw [hu c h1] at hw; cases hw

/-! ### Whitespace collapse and de-hyphenation lemmas -/

theorem collapseGo_true_eq (r : Str) :
    collapseGo true r = collapseGo false (r.dropWhile isPySpace) := by
  induction r with
  | nil => rfl
  | cons c r ih =>
    by_cases hc : isPySpace c = true
    · rw [List.dropWhile_cons, if_pos hc, ← ih]
      simp [collapseGo, hc]
    · simp [collapseGo, List.dropWhile_cons, hc]

theorem collapseGo_mem : ∀ (l : Str) (b : Bool), ∀ c ∈ collapseGo b l, c ∈ l ∨ c = ' ' := by
  intro l
  induction l with
  | nil => intro b c hc; simp [collapseGo] at hc
  | cons d r ih =>
    intro b c hc
    by_cases hd : isPySpace d = true
    · cases b with
      | true =>
        simp only [collapseGo, hd, if_true] at hc
        rcases ih true c hc with h | h
        · exact Or.inl (List.mem_cons_of_mem _ h)
        · exact Or.inr h
      | false =>
        simp only [collapseGo, hd, if_true, if_false] at hc
        rcases List.mem_cons.1 hc with h | h
        · exact Or.inr h
        · rcases ih true c h with h2 | h2
          · exact Or.inl (List.mem_cons_of_mem _ h2)
          · exact Or.inr h2
    · simp only [collapseGo, hd, if_false] at hc
      rcases List.mem_cons.1 hc with h | h
      · exact Or.inl (h ▸ List.mem_cons_self _ _)
      · rcases ih false c h with h2 | h2
        · exact Or.inl (List.mem_cons_of_mem _ h2)
        · exact Or.inr h2

theorem collapseWs_mem {l : Str} : ∀ c ∈ collapseWs l, c ∈ l ∨ c = ' ' :=
  collapseGo_mem l false

theorem dehyphenGo_mem : ∀ (fuel : Nat) (l : Str), ∀ c ∈ dehyphenGo fuel l, c ∈ l := by
  intro fuel
  induction fuel with
  | zero => intro l c hc; simpa [dehyphenGo] using hc
  | succ fuel ih =>
    intro l x hx
    match l with
    | [] => simp [dehyphenGo] at hx
    | c :: rest =>
      by_cases hw : isWordC c = true
      · match rest with
        | [] =>
          simp only [dehyphenGo, hw, if_true] at hx
          simpa using hx
        | d :: r2 =>
          by_cases hd : d = '-'
          · subst hd
            cases hz : r2.dropWhile isPySpace with
            | nil =>
              simp only [dehyphenGo, hw, if_true, hz] at hx
              rcases List.mem_cons.1 hx with h | h
              · exact h ▸ List.mem_cons_self _ _
              · exact List.mem_cons_of_mem _ (ih _ x h)
            | cons w tail =>
              by_cases hcond :
                  (decide ((r2.takeWhile isPySpace).length ≠ 0) && isWordC w) = true
              · simp only [dehyphenGo, hw, if_true, hz, hcond] at hx
                rcases List.mem_cons.1 hx with h | h
                · exact h ▸ List.mem_cons_self _ _
                rcases List.mem_cons.1 h with h2 | h2
                · subst h2
                  refine List.mem_cons_of_mem _ (List.mem_cons_of_mem _ ?_)
                  exact (List.dropWhile_sublist _).mem (hz ▸ List.mem_cons_self _ _)
                · refine List.mem_cons_of_mem _ (List.mem_cons_of_mem _ ?_)
                  exact (List.dropWhile_sublist _).mem
                    (hz ▸ List.mem_cons_of_mem _ (ih _ x h2))
              · simp only [dehyphenGo, hw, if_true, hz, hcond, if_false,
                  Bool.false_eq_true] at hx
                rcases List.mem_cons.1 hx with h | h
                · exact h ▸ List.mem_cons_self _ _
                · exact List.mem_cons_of_mem _ (ih _ x h)
          · simp only [dehyphenGo, hw, if_true, hd, if_false] at hx
            rcases List.mem_cons.1 hx with h | h
            · exact h ▸ List.mem_cons_self _ _
            · exact List.mem_cons_of_mem _ (ih _ x h)
      · simp only [dehyphenGo, hw, if_false, Bool.false_eq_true] at hx
        rcases List.mem_cons.1 hx with h | h
        · exact h ▸ List.mem_cons_self _ _
        · exact List.mem_cons_of_mem _ (ih _ x h)

theorem dehyphen_mem {l : Str} : ∀ c ∈ dehyphen l, c ∈ l :=
  dehyphenGo_mem l.length l

theorem replChar_out {c c' : Char} (h : replChar c = some c') :
    replChar c' = some c' := by
  unfold replChar at h
  split_ifs at h with h1 h2 h3 h4 h5 h6 h7 h8
  · injection h with h9; subst h9; decide
  · injection h with h9; subst h9; decide
  · injection h with h9; subst h9; decide
  · injection h with h9; subst h9; decide
  · injection h with h9; subst h9; decide
  · injection h with h9; subst h9; decide
  · injection h with h9; subst h9; decide
  · injection h with h9
    subst h9
    unfold replChar
    simp [h1, h2, h3, h4, h5, h6, h7, h8]

theorem replaceSpecials_fixed {l : Str} (h : ∀ c ∈ l, replChar c = some c) :
    replaceSpecials l = l := by
  induction l with
  | nil => rfl
  | cons c r ih =>
    unfold replaceSpecials at *
    rw [List.filterMap_cons, h c (List.mem_cons_self c r),
      ih (fun x hx => h x (List.mem_cons_of_mem _ hx))]

theorem mem_replaceSpecials_fixed {l : Str} {c : Char}
    (h : c ∈ replaceSpecials l) : replChar c = some c := by
  obtain ⟨a, _, ha⟩ := List.mem_filterMap.1 h
  exact replChar_out ha

theorem normalize_fixed_chars (x : Str) :
    ∀ c ∈ normalizePdfText x, replChar c = some c := by
  intro c hc
  unfold normalizePdfText at hc
  have h1 := mem_of_mem_strip hc
  rcases collapseWs_mem _ h1 with h2 | h2
  · exact mem_replaceSpecials_fixed (dehyphen_mem _ h2)
  · subst h2; decide

theorem singleSpaced_cons_cons {c d : Char} {r : Str} :
    singleSpaced (c :: d :: r) =
      ((!isPySpace c || c == ' ') && !(isPySpace c && isPySpace d) &&
        singleSpaced (d :: r)) := rfl

theorem singleSpaced_one {c : Char} :
    singleSpaced [c] = (!isPySpace c || c == ' ') := by
  simp [singleSpaced]

theorem collapseWs_cons_ws {c : Char} {r : Str} (h : isPySpace c = true) :
    collapseWs (c :: r) = ' ' :: collapseWs (r.dropWhile isPySpace) := by
  show collapseGo false (c :: r) = ' ' :: collapseGo false (r.dropWhile isPySpace)
  rw [← collapseGo_true_eq]
  simp [collapseGo, h]

theorem collapseWs_cons_not {c : Char} {r : Str} (h : ¬isPySpace c = true) :
    collapseWs (c :: r) = c :: collapseWs r := by
  show collapseGo false (c :: r) = c :: collapseGo false r
  simp [collapseGo, h]

theorem collapseGo_head_not_ws (l : Str) :
    ∀ c r', collapseGo true l = c :: r' → isPySpace c = false := by
  induction l with
  | nil => intro c r' h; cases h
  | cons d r ih =>
    intro c r' h
    by_cases hd : isPySpace d = true
    · simp only [collapseGo, hd, if_true] at h
      exact ih c r' h
    · simp only [collapseGo, hd, if_false] at h
      cases h
      simpa using hd

theorem singleSpaced_cons_intro {c : Char} {X : Str}
    (h1 : (!isPySpace c || c == ' ') = true)
    (h2 : ∀ e r', X = e :: r' → ¬(isPySpace c = true ∧ isPySpace e = true))
    (h3 : singleSpaced X = true) : singleSpaced (c :: X) = true := by
  cases X with
  | nil => rw [singleSpaced_one]; exact h1
  | cons e r' =>
    rw [singleSpaced_cons_cons]
    simp only [Bool.and_eq_true]
    refine ⟨⟨h1, ?_⟩, h3⟩
    have := h2 e r' rfl
    simp only [Bool.not_and, Bool.not_eq_true, Bool.or_eq_true]
    by_cases hc : isPySpace c = true
    · by_cases he : isPySpace e = true
      · exact absurd ⟨hc, he⟩ this
      · right; simpa using he
    · left; simpa using hc

theorem collapseGo_ss (l : Str) : ∀ b, singleSpaced (collapseGo b l) = true := by
  induction l with
  | nil => intro b; rfl
  | cons d r ih =>
    intro b
    by_cases hd : isPySpace d = true
    · cases b with
      | true => simp only [collapseGo, hd, if_true]; exact ih true
      | false =>
        simp only [collapseGo, hd, if_true, if_false]
        refine singleSpaced_cons_intro (by decide) ?_ (ih true)
        intro e r' he hcontra
        have := collapseGo_head_not_ws r e r' he
        rw [this] at hcontra
        exact absurd hcontra.2 (by simp)
    · simp only [collapseGo, hd, if_false]
      refine singleSpaced_cons_intro (by simp [hd]) ?_ (ih false)
      intro e r' _ hcontra
      exact absurd hcontra.1 (by simp [hd])

theorem collapseWs_singleSpaced (l : Str) :
    singleSpaced (collapseWs l) = true := collapseGo_ss l false

theorem singleSpaced_tail {c : Char} {r : Str}
    (h : singleSpaced (c :: r) = true) : singleSpaced r = true := by
  cases r with
  | nil => rfl
  | cons d r' =>
    rw [singleSpaced_cons_cons] at h
    simp only [Bool.and_eq_true] at h
    exact h.2

theorem singleSpaced_append_right {a b : Str}
    (h : singleSpaced (a ++ b) = true) : singleSpaced b = true := by
  induction a with
  | nil => exact h
  | cons c r ih => exact ih (singleSpaced_tail h)

theorem singleSpaced_append_left {a b : Str}
    (h : singleSpaced (a ++ b) = true) : singleSpaced a = true := by
  induction a with
  | nil => rfl
  | cons c r ih =>
    cases r with
    | nil =>
      cases b with
      | nil => exact h
      | cons d b' =>
        rw [List.cons_append, List.nil_append, singleSpaced_cons_cons] at h
        simp only [Bool.and_eq_true] at h
        rw [singleSpaced_one]
        exact h.1.1
    | cons d r' =>
      rw [List.cons_append, List.cons_append, singleSpaced_cons_cons] at h
      simp only [Bool.and_eq_true] at h
      rw [singleSpaced_cons_cons]
      simp only [Bool.and_eq_true]
      refine ⟨h.1, ?_⟩
      exact ih (by rw [List.cons_append]; exact h.2)

theorem singleSpaced_collapse_fix {l : Str}
    (h : singleSpaced l = true) : collapseWs l = l := by
  induction l with
  | nil => rfl
  | cons c r ih =>
    by_cases hc : isPySpace c = true
    · have hcsp : c = ' ' := by
        cases r with
        | nil =>
          rw [singleSpaced_one] at h
          simpa [hc] using h
        | cons d r' =>
          rw [singleSpaced_cons_cons] at h
          simp only [Bool.and_eq_true] at h
          have := h.1.1
          simpa [hc] using this
      have hr : r.dropWhile isPySpace = r := by
        cases r with
        | nil => rfl
        | cons d r' =>
          rw [singleSpaced_cons_cons] at h
          simp only [Bool.and_eq_true] at h
          have hd := h.1.2
          rw [hc] at hd
          simp only [Bool.true_and, Bool.not_eq_true', Bool.not_and,
            Bool.not_eq_true] at hd
          simp [List.dropWhile_cons, hd]
      rw [collapseWs_cons_ws hc, hr, ih (singleSpaced_tail h), hcsp]
    · rw [collapseWs_cons_not hc, ih (singleSpaced_tail h)]

/-- The text produced by the normalizer is fixed by a further whitespace
collapse (its whitespace is already single spaces). -/
theorem collapse_normalize_fix (x : Str) :
    collapseWs (normalizePdfText x) = normalizePdfText x := by
  apply singleSpaced_collapse_fix
  unfold normalizePdfText
  obtain ⟨p, u, ht, _, _⟩ :=
    strip_decomp (collapseWs (dehyphen (replaceSpecials x)))
  have hss := collapseWs_singleSpaced (dehyphen (replaceSpecials x))
  rw [ht, List.append_assoc] at hss
  exact singleSpaced_append_left (singleSpaced_append_right hss)

theorem strip_normalize_fix (x : Str) :
    strip (normalizePdfText x) = normalizePdfText x := by
  unfold normalizePdfText
  exact strip_idem _

/-- C1 counterexample: the normalizer is not idempotent as claimed.  On
`a- b- c` the de-hyphenation pass rejoins `a- b` and resumes after the
match, so the second hyphen split survives the first pass and is rejoined
only by a second pass: `normalize` gives `ab- c`, `normalize ∘ normalize`
gives `abc`. -/
theorem C1_counterexample :
    normalizePdfText (normalizePdfText ("a- b- c".data)) ≠
      normalizePdfText ("a- b- c".data) := by decide

/-- C1 (amended): `normalize(normalize(x)) == normalize(x)` holds for
every input `x` on which the de-hyphenation rule finds nothing further
to rejoin in `normalize(x)`; a single pass can leave a fresh
`word-hyphen-space-word` occurrence behind (see `C1_counterexample`), and
that is the only source of non-idempotence — the character replacements,
the whitespace collapse and the trim are each fixed on normalizer
output. -/
theorem C1_normalize_idempotent (x : Str)
    (h : dehyphen (normalizePdfText x) = normalizePdfText x) :
    normalizePdfText (normalizePdfText x) = normalizePdfText x := by
  show strip (collapseWs (dehyphen (replaceSpecials (normalizePdfText x)))) =
    normalizePdfText x
  rw [replaceSpecials_fixed (normalize_fixed_chars x), h,
    collapse_normalize_fix, strip_normalize_fix]

/-- C1 witness: a concrete input (smart quotes, an en dash, whitespace
runs) on which the amended idempotence theorem applies. -/
theorem C1_witness :
    dehyphen (normalizePdfText ("  “Gender”  –  Power  ".data)) =
        normalizePdfText ("  “Gender”  –  Power  ".data) ∧
      normalizePdfText (normalizePdfText ("  “Gender”  –  Power  ".data)) =
        normalizePdfText ("  “Gender”  –  Power  ".data) :=
  ⟨by decide, C1_normalize_idempotent _ (by decide)⟩

/-! ### C2: merge completeness -/

theorem joinSpace_cons_ne_nil (x : Str) {l : List Str} (h : l ≠ []) :
    joinSpace (x :: l) = x ++ ' ' :: joinSpace l := by
  cases l with
  | nil => exact absurd rfl h
  | cons y ys => rfl

theorem joinSpace_cons_merge (a b : Str) (l : List Str) :
    joinSpace ((a ++ ' ' :: b) :: l) = joinSpace (a :: b :: l) := by
  cases l with
  | nil => simp [joinSpace]
  | cons y ys =>
    rw [joinSpace_cons_ne_nil _ (by simp),
      joinSpace_cons_ne_nil a (by simp),
      joinSpace_cons_ne_nil b (by simp)]
    simp

theorem mergeAux_some_ne_nil (rest : List RawLine) :
    ∀ c : MUnit, mergeAux (some c) rest ≠ [] := by
  induction rest with
  | nil => intro c; simp [mergeAux]
  | cons item rest ih =>
    intro c
    rw [mergeAux]
    by_cases ht : (strip item.text).length = 0
    · rw [if_pos ht]; exact ih c
    · rw [if_neg ht]
      by_cases hm : shouldMergeLines c.full_text (strip item.text) = true
      · rw [if_pos hm]; exact ih _
      · rw [if_neg hm]; simp

theorem trimmedTexts_cons_empty {item : RawLine} {rest : List RawLine}
    (h : (strip item.text).length = 0) :
    trimmedTexts (item :: rest) = trimmedTexts rest := by
  unfold trimmedTexts
  simp only [List.map_cons, List.filter_cons]
  rw [if_neg (by simpa using h)]

theorem trimmedTexts_cons_ne {item : RawLine} {rest : List RawLine}
    (h : ¬(strip item.text).length = 0) :
    trimmedTexts (item :: rest) = strip item.text :: trimmedTexts rest := by
  unfold trimmedTexts
  simp only [List.map_cons, List.filter_cons]
  rw [if_pos (by simpa using h)]

theorem mergeAux_join_some (rest : List RawLine) :
    ∀ c : MUnit,
      joinSpace ((mergeAux (some c) rest).map MUnit.full_text) =
        joinSpace (c.full_text :: trimmedTexts rest) := by
  induction rest with
  | nil => intro c; rfl
  | cons item rest ih =>
    intro c
    rw [mergeAux]
    by_cases ht : (strip item.text).length = 0
    · rw [if_pos ht, trimmedTexts_cons_empty ht]
      exact ih c
    · rw [if_neg ht, trimmedTexts_cons_ne ht]
      by_cases hm : shouldMergeLines c.full_text (strip item.text) = true
      · rw [if_pos hm, ih]
        exact joinSpace_cons_merge _ _ _
      · rw [if_neg hm]
        rw [List.map_cons]
        rw [joinSpace_cons_ne_nil _ (by
          simp only [ne_eq, List.map_eq_nil]
          exact mergeAux_some_ne_nil rest _)]
        rw [ih]
        rw [joinSpace_cons_ne_nil c.full_text
          (show strip item.text :: trimmedTexts rest ≠ [] by simp)]

/-- C2 counterexample: with the single fragment `" a "` the merger trims
the text, so the concatenation of the merged-unit texts is `"a"` while
the concatenation of the non-empty input fragment texts is `" a "`; no
join space was inserted, so the claimed equality fails. -/
theorem C2_counterexample :
    ((mergeFragmentedLines [⟨" a ".data, 0, 1⟩]).map MUnit.full_text) =
        ["a".data] ∧
      List.join ((mergeFragmentedLines [⟨" a ".data, 0, 1⟩]).map
          MUnit.full_text) ≠
        List.join [" a ".data] := by
  constructor
  · decide
  · decide

/-- C2 (amended): the merger drops no text up to per-fragment trimming —
the full texts of the merged units, joined with single spaces (covering
both the spaces inserted at in-unit joins and the unit boundaries),
equal the trimmed texts of all fragments that are non-empty after
trimming, joined with single spaces, in order; whitespace-only fragments
are skipped. -/
theorem C2_merge_complete (lines : List RawLine) :
    joinSpace ((mergeFragmentedLines lines).map MUnit.full_text) =
      joinSpace (trimmedTexts lines) := by
  unfold mergeFragmentedLines
  induction lines with
  | nil => rfl
  | cons item rest ih =>
    rw [mergeAux]
    by_cases ht : (strip item.text).length = 0
    · rw [if_pos ht, trimmedTexts_cons_empty ht]
      exact ih
    · rw [if_neg ht, trimmedTexts_cons_ne ht]
      exact mergeAux_join_some rest _

/-! ### C5 and C6: classifier gates -/

/-- C5: every text shorter than 20 characters is classified `too_short`,
before any header, instruction or reading signal is consulted. -/
theorem C5_too_short (fuel week start stop : Nat) (text : Str)
    (isSplit : Bool) (h : text.length < 20) :
    ((classifySingle fuel week text start stop isSplit).2).map Item.cls =
      [.tooShort] := by
  cases fuel with
  | zero => simp [classifySingle, classifyStep, h]
  | succ n => simp [classifySingle, classifyStep, h]

/-- C5 witness: the 9-character input of the specification scenario. -/
theorem C5_witness :
    ((classifySingle 3 0 ("Short txt".data) 0 0 false).2).map Item.cls =
      [.tooShort] :=
  C5_too_short 3 0 0 0 ("Short txt".data) false (by decide)

/-- C6: for every text of length at least 20 that the structural header
check accepts, the classifier assigns `header` — the header branch is
examined before the instruction and reading branches, so it wins whatever
the scores are. -/
theorem C6_header_priority (fuel week start stop : Nat) (text : Str)
    (isSplit : Bool) (h20 : 20 ≤ text.length) (hh : isHeader text = true) :
    ((classifySingle fuel week text start stop isSplit).2).map Item.cls =
      [.header] := by
  have key : ∀ rec : Nat → Str → Nat → Nat → Nat × List Item,
      ((classifyStep rec week text start stop isSplit).2).map Item.cls =
        [.header] := by
    intro rec
    unfold classifyStep
    rw [if_neg (by omega : ¬text.length < 20), if_pos hh]
    cases hw : isWeekHeader text with
    | none => simp
    | some w =>
      by_cases hw0 : w = 0
      · simp [hw0]
      · simp [hw0]
  cases fuel with
  | zero => exact key _
  | succ n => exact key _

/-- C6 witness: a header keyword line of length 43 whose instruction
score is also at least 3 (office hours, a time range, a weekday with a
number, a room), showing the header branch wins over a high instruction
score. -/
theorem C6_witness :
    3 ≤ getInstructionScore
        ("Office Hours: Mondays 3:00-5:00 In Room 12.".data) ∧
      ((classifySingle 3 7
          ("Office Hours: Mondays 3:00-5:00 In Room 12.".data) 0 0
          false).2).map Item.cls = [.header] :=
  ⟨by decide,
   C6_header_priority 3 7 0 0 _ false (by decide) (by decide)⟩

/-! ### C7: find_split_points postconditions -/

theorem gapFilter_ge (l : List Nat) :
    ∀ (last : Int), ∀ x ∈ gapFilter l last, last + 30 ≤ (x : Int) := by
  induction l with
  | nil => intro last x hx; simp [gapFilter] at hx
  | cons p ps ih =>
    intro last x hx
    rw [gapFilter] at hx
    by_cases hp : 30 ≤ (p : Int) - last
    · rw [if_pos hp] at hx
      rcases List.mem_cons.1 hx with h | h
      · subst h; omega
      · have := ih p x h; omega
    · rw [if_neg hp] at hx
      exact ih last x hx

theorem gapFilter_minGap (l : List Nat) :
    ∀ last : Int, minGap30 (gapFilter l last) = true := by
  induction l with
  | nil => intro last; rfl
  | cons p ps ih =>
    intro last
    rw [gapFilter]
    by_cases hp : 30 ≤ (p : Int) - last
    · rw [if_pos hp]
      cases hx : gapFilter ps p with
      | nil => rfl
      | cons b r =>
        have hb : (p : Int) + 30 ≤ (b : Int) :=
          gapFilter_ge ps p b (hx ▸ List.mem_cons_self b r)
        have hmem := ih p
        rw [hx] at hmem
        show minGap30 (p :: b :: r) = true
        rw [minGap30]
        simp only [Bool.and_eq_true, decide_eq_true_eq]
        exact ⟨by omega, hmem⟩
    · rw [if_neg hp]
      exact ih last

theorem gapFilter_subset (l : List Nat) :
    ∀ (last : Int), ∀ x ∈ gapFilter l last, x ∈ l := by
  induction l with
  | nil => intro last x hx; simp [gapFilter] at hx
  | cons p ps ih =>
    intro last x hx
    rw [gapFilter] at hx
    by_cases hp : 30 ≤ (p : Int) - last
    · rw [if_pos hp] at hx
      rcases List.mem_cons.1 hx with h | h
      · exact h ▸ List.mem_cons_self _ _
      · exact List.mem_cons_of_mem _ (ih p x h)
    · rw [if_neg hp] at hx
      exact List.mem_cons_of_mem _ (ih last x hx)

theorem mem_insD {x y : Nat} {l : List Nat} (h : x ∈ insD y l) :
    x = y ∨ x ∈ l := by
  induction l with
  | nil => simpa [insD] using h
  | cons z zs ih =>
    rw [insD] at h
    by_cases h1 : y < z
    · rw [if_pos h1] at h
      rcases List.mem_cons.1 h with h2 | h2
      · exact Or.inl h2
      · exact Or.inr h2
    · rw [if_neg h1] at h
      by_cases h2 : y = z
      · rw [if_pos h2] at h
        exact Or.inr h
      · rw [if_neg h2] at h
        rcases List.mem_cons.1 h with h3 | h3
        · exact Or.inr (h3 ▸ List.mem_cons_self _ _)
        · rcases ih h3 with h4 | h4
          · exact Or.inl h4
          · exact Or.inr (List.mem_cons_of_mem _ h4)

theorem sortedDedup_subset {l : List Nat} :
    ∀ x ∈ sortedDedup l, x ∈ l := by
  induction l with
  | nil => intro x hx; simpa [sortedDedup] using hx
  | cons p ps ih =>
    intro x hx
    unfold sortedDedup at hx ih
    rw [List.foldr_cons] at hx
    rcases mem_insD hx with h | h
    · exact h ▸ List.mem_cons_self _ _
    · exact List.mem_cons_of_mem _ (ih x h)

/-- C7: the split points are strictly increasing without duplicates
(consecutive entries differ by at least 30, which also forces strict
ascent), every offset exceeds 10 (so at least 10 characters of content
precede it), as collected, deduplicated, sorted and gap-filtered by
`find_split_points`. -/
theorem C7_split_points (t : Str) :
    (findSplitPoints t).all (fun p => decide (10 < p)) = true ∧
      minGap30 (findSplitPoints t) = true := by
  constructor
  · rw [List.all_eq_true]
    intro p hp
    have h1 := gapFilter_subset _ _ p hp
    have h2 := sortedDedup_subset p h1
    unfold collectSplitPoints at h2
    have h3 := List.of_mem_filter h2
    simpa using h3
  · exact gapFilter_minGap _ _

/-! ### C3: split partition -/

theorem strategy1_all (n : Str) : ∀ s ∈ strategy1 n, 25 < s.length := by
  unfold strategy1
  by_cases hc :
      ((pairFindIter splitSepRE splitAuthRE n).map (fun m => m.2.1)).isEmpty
  · rw [if_pos hc]; intro s hs; cases hs
  · rw [if_neg hc]
    intro s hs
    have := List.of_mem_filter hs
    simpa using this

theorem s2Loop_all (parts : List Str) :
    ∀ (cur : Str) (acc : List Str), (∀ s ∈ acc, 25 < s.length) →
      ∀ s ∈ s2Loop parts cur acc, 25 < s.length := by
  induction parts with
  | nil =>
    intro cur acc hacc s hs
    rw [s2Loop] at hs
    by_cases h : 25 < cur.length
    · rw [if_pos h] at hs
      rcases List.mem_append.1 hs with h1 | h1
      · exact hacc s h1
      · rw [List.mem_singleton.1 h1]; exact h
    · rw [if_neg h] at hs
      exact hacc s hs
  | cons p ps ih =>
    intro cur acc hacc s hs
    rw [s2Loop] at hs
    by_cases h1 : (strip p).length = 0
    · rw [if_pos h1] at hs
      exact ih cur acc hacc s hs
    · rw [if_neg h1] at hs
      by_cases h2 : reMatchB s2MarkerFullRE (strip p) = true
      · rw [if_pos h2] at hs
        by_cases h3 : 25 < cur.length
        · rw [if_pos h3] at hs
          refine ih [] _ ?_ s hs
          intro x hx
          rcases List.mem_append.1 hx with h4 | h4
          · exact hacc x h4
          · rw [List.mem_singleton.1 h4]; exact h3
        · rw [if_neg h3] at hs
          exact ih [] acc hacc s hs
      · rw [if_neg h2] at hs
        exact ih _ acc hacc s hs

theorem strategy2_all (n : Str) : ∀ s ∈ strategy2 n, 25 < s.length := by
  unfold strategy2
  exact s2Loop_all _ [] [] (by intro s hs; cases hs)

theorem s3Loop_all (parts : List Str) :
    ∀ acc : List Str, (∀ s ∈ acc, 25 < s.length) →
      ∀ s ∈ s3Loop parts acc, 25 < s.length := by
  induction parts with
  | nil =>
    intro acc hacc s hs
    rw [s3Loop] at hs
    exact hacc s (List.mem_reverse.1 hs)
  | cons p ps ih =>
    intro acc hacc s hs
    cases acc with
    | nil =>
      rw [s3Loop] at hs
      by_cases h1 : 25 < (strip p).length
      · rw [if_pos h1] at hs
        by_cases h2 : (looksLikeAuthor (strip p) ||
            reSearchB yearParenRE (strip p)) = true
        · rw [if_pos h2] at hs
          refine ih _ ?_ s hs
          intro x hx
          rw [List.mem_singleton.1 hx]
          exact h1
        · rw [if_neg h2] at hs
          refine ih _ ?_ s hs
          intro x hx
          rw [List.mem_singleton.1 hx]
          exact h1
      · rw [if_neg h1] at hs
        exact ih [] hacc s hs
    | cons last restAcc =>
      rw [s3Loop] at hs
      by_cases h1 : 25 < (strip p).length
      · rw [if_pos h1] at hs
        by_cases h2 : (looksLikeAuthor (strip p) ||
            reSearchB yearParenRE (strip p)) = true
        · rw [if_pos h2] at hs
          refine ih _ ?_ s hs
          intro x hx
          rcases List.mem_cons.1 hx with h3 | h3
          · rw [h3]; exact h1
          · exact hacc x h3
        · rw [if_neg h2] at hs
          refine ih _ ?_ s hs
          intro x hx
          rcases List.mem_cons.1 hx with h3 | h3
          · rw [h3]
            have hl : 25 < last.length :=
              hacc last (List.mem_cons_self _ _)
            simp only [List.length_append, List.length_cons]
            omega
          · exact hacc x (List.mem_cons_of_mem _ h3)
      · rw [if_neg h1] at hs
        exact ih _ hacc s hs

theorem strategy3_all (n : Str) : ∀ s ∈ strategy3 n, 25 < s.length := by
  unfold strategy3
  exact s3Loop_all _ [] (by intro s hs; cases hs)

theorem s4Step_all (t : Str) (acc : Nat × List Str) (st : Nat)
    (hacc : ∀ s ∈ acc.2, 25 < s.length) :
    ∀ s ∈ (s4Step t acc st).2, 25 < s.length := by
  intro s hs
  rw [s4Step] at hs
  split at hs
  · split at hs
    · rename_i v heq hlt
      have hs2 : s ∈ (if 25 < (strip (sliceStr t acc.1 v)).length
          then acc.2 ++ [strip (sliceStr t acc.1 v)] else acc.2) := hs
      by_cases h2 : 25 < (strip (sliceStr t acc.1 v)).length
      · rw [if_pos h2] at hs2
        rcases List.mem_append.1 hs2 with h3 | h3
        · exact hacc s h3
        · rw [List.mem_singleton.1 h3]
          exact h2
      · rw [if_neg h2] at hs2
        exact hacc s hs2
    · exact hacc s hs
  · exact hacc s hs

theorem s4Fold_all (t : Str) (starts : List Nat) :
    ∀ acc : Nat × List Str, (∀ s ∈ acc.2, 25 < s.length) →
      ∀ s ∈ (starts.foldl (s4Step t) acc).2, 25 < s.length := by
  induction starts with
  | nil => intro acc hacc s hs; exact hacc s hs
  | cons st sts ih =>
    intro acc hacc s hs
    rw [List.foldl_cons] at hs
    exact ih _ (s4Step_all t acc st hacc) s hs

theorem strategy4_all (n : Str) : ∀ s ∈ strategy4 n, 25 < s.length := by
  unfold strategy4
  by_cases h0 : (extractAuthorYearStarts n).length ≤ 1
  · rw [if_pos h0]; intro s hs; cases hs
  · rw [if_neg h0]
    intro s hs
    by_cases h1 : 25 <
        (strip (n.drop (((extractAuthorYearStarts n).drop 1).foldl
          (s4Step n) (0, [])).1)).length
    · rw [if_pos h1] at hs
      rcases List.mem_append.1 hs with h2 | h2
      · exact s4Fold_all n _ _ (by intro x hx; cases hx) s h2
      · rw [List.mem_singleton.1 h2]; exact h1
    · rw [if_neg h1] at hs
      exact s4Fold_all n _ _ (by intro x hx; cases hx) s hs

/-- C3 counterexample: the claim fails as stated — on the empty string
the splitter returns the empty list, which is neither `[t]` nor more
than one segment, and on whitespace-padded input the single segment
returned is the normalized text, not the original. -/
theorem C3_counterexample :
    splitConcatenatedReadings ([] : Str) = [] ∧
      splitConcatenatedReadings ("  hi   there  ".data) = ["hi there".data] ∧
      "hi there".data ≠ "  hi   there  ".data := by
  refine ⟨by decide, by decide, by decide⟩

/-- C3 (amended): the splitter first normalizes; it returns the empty
list exactly when the normalized text is empty, or the normalized text
as a single segment (the not-splittable signal), or more than one
segment each longer than 25 characters.  (The concatenation of a
multi-segment result need not reconstruct the input: the strategies drop
marker tokens and sub-25-character chunks.) -/
theorem C3_split_partition (t : Str) :
    (splitConcatenatedReadings t = [] ∧ normalizePdfText t = []) ∨
      splitConcatenatedReadings t = [normalizePdfText t] ∨
      (1 < (splitConcatenatedReadings t).length ∧
        (splitConcatenatedReadings t).all
          (fun s => decide (25 < s.length)) = true) := by
  by_cases h0 : (normalizePdfText t).length = 0
  · refine Or.inl ⟨?_, List.length_eq_zero.1 h0⟩
    simp only [splitConcatenatedReadings]
    rw [if_pos h0]
  · by_cases h40 : (normalizePdfText t).length < 40
    · refine Or.inr (Or.inl ?_)
      simp only [splitConcatenatedReadings]
      rw [if_neg h0, if_pos h40]
    · by_cases h1 : 1 < (strategy1 (normalizePdfText t)).length
      · have he : splitConcatenatedReadings t = strategy1 (normalizePdfText t) := by
          simp only [splitConcatenatedReadings]
          rw [if_neg h0, if_neg h40, if_pos h1]
        refine Or.inr (Or.inr ⟨he ▸ h1, ?_⟩)
        rw [he, List.all_eq_true]
        intro s hs
        simpa using strategy1_all _ s hs
      · by_cases h2 : 1 < (if reSearchB bulletGateRE (normalizePdfText t) = true
            then strategy2 (normalizePdfText t) else []).length
        · have he : splitConcatenatedReadings t =
              (if reSearchB bulletGateRE (normalizePdfText t) = true
                then strategy2 (normalizePdfText t) else []) := by
            simp only [splitConcatenatedReadings]
            rw [if_neg h0, if_neg h40, if_neg h1, if_pos h2]
          refine Or.inr (Or.inr ⟨he ▸ h2, ?_⟩)
          rw [he, List.all_eq_true]
          intro s hs
          by_cases hg : reSearchB bulletGateRE (normalizePdfText t) = true
          · rw [if_pos hg] at hs
            simpa using strategy2_all _ s hs
          · rw [if_neg hg] at hs
            cases hs
        · by_cases h3 : 1 < (if (normalizePdfText t).contains ';' = true
              then strategy3 (normalizePdfText t) else []).length
          · have he : splitConcatenatedReadings t =
                (if (normalizePdfText t).contains ';' = true
                  then strategy3 (normalizePdfText t) else []) := by
              simp only [splitConcatenatedReadings]
              rw [if_neg h0, if_neg h40, if_neg h1, if_neg h2, if_pos h3]
            refine Or.inr (Or.inr ⟨he ▸ h3, ?_⟩)
            rw [he, List.all_eq_true]
            intro s hs
            by_cases hg : (normalizePdfText t).contains ';' = true
            · rw [if_pos hg] at hs
              simpa using strategy3_all _ s hs
            · rw [if_neg hg] at hs
              cases hs
          · by_cases h4 : 1 < (strategy4 (normalizePdfText t)).length
            · have he : splitConcatenatedReadings t =
                  strategy4 (normalizePdfText t) := by
                simp only [splitConcatenatedReadings]
                rw [if_neg h0, if_neg h40, if_neg h1, if_neg h2, if_neg h3,
                  if_pos h4]
              refine Or.inr (Or.inr ⟨he ▸ h4, ?_⟩)
              rw [he, List.all_eq_true]
              intro s hs
              simpa using strategy4_all _ s hs
            · refine Or.inr (Or.inl ?_)
              simp only [splitConcatenatedReadings]
              rw [if_neg h0, if_neg h40, if_neg h1, if_neg h2, if_neg h3,
                if_neg h4]

/-! ### C8: totality on whitespace-only input -/

theorem ws_enum {c : Char} (h : isPySpace c = true) :
    c = ' ' ∨ c = '\t' ∨ c = '\n' ∨ c = '\r' ∨ c = '\x0b' ∨ c = '\x0c' := by
  simp only [isPySpace, Bool.or_eq_true, decide_eq_true_eq] at h
  tauto

theorem ws_replChar {c : Char} (h : isPySpace c = true) :
    replChar c = some c := by
  rcases ws_enum h with h | h | h | h | h | h <;> subst h <;> decide

theorem ws_pyLower {c : Char} (h : isPySpace c = true) : pyLower c = c := by
  rcases ws_enum h with h | h | h | h | h | h <;> subst h <;> decide

theorem ws_not_upperC {c : Char} (h : isPySpace c = true) :
    isUpperC c = false := by
  rcases ws_enum h with h | h | h | h | h | h <;> subst h <;> decide

theorem ws_not_ivx {c : Char} (h : isPySpace c = true) : isIVX c = false := by
  rcases ws_enum h with h | h | h | h | h | h <;> subst h <;> decide

theorem ws_ne_colon {c : Char} (h : isPySpace c = true) : c ≠ ':' := by
  rcases ws_enum h with h | h | h | h | h | h <;> subst h <;> decide

theorem normalize_ws {t : Str} (h : ∀ c ∈ t, isPySpace c = true) :
    normalizePdfText t = [] := by
  unfold normalizePdfText
  apply strip_all_ws
  intro c hc
  rcases collapseWs_mem c hc with h1 | h1
  · have h2 := dehyphen_mem c h1
    unfold replaceSpecials at h2
    obtain ⟨a, ha, hrc⟩ := List.mem_filterMap.1 h2
    rw [ws_replChar (h a ha)] at hrc
    injection hrc with h3
    rw [← h3]
    exact h a ha
  · rw [h1]; decide

theorem split_ws {t : Str} (h : ∀ c ∈ t, isPySpace c = true) :
    splitConcatenatedReadings t = [] := by
  have hn : normalizePdfText t = [] := normalize_ws h
  simp only [splitConcatenatedReadings, hn]
  decide

theorem lowerStr_ws {t : Str} (h : ∀ c ∈ t, isPySpace c = true) :
    ∀ c ∈ lowerStr t, isPySpace c = true := by
  intro c hc
  obtain ⟨a, ha, hmap⟩ := List.mem_map.1 hc
  rw [← hmap, ws_pyLower (h a ha)]
  exact h a ha

theorem isHeader_ws {t : Str} (h : ∀ c ∈ t, isPySpace c = true) :
    isHeader t = false := by
  have htl : strip (lowerStr t) = [] := strip_all_ws (lowerStr_ws h)
  have hst : strip t = [] := strip_all_ws h
  have h1 : isUpperPy (t.filter (fun c => c ≠ ' ')) = false := by
    unfold isUpperPy
    have ha : (t.filter (fun c => c ≠ ' ')).any isUpperC = false := by
      rw [List.any_eq_false]
      intro x hx
      simp [ws_not_upperC (h x (List.mem_of_mem_filter hx))]
    rw [ha, Bool.false_and]
  have h2 : (t.getLast? == some ':') = false := by
    cases hg : t.getLast? with
    | none => rfl
    | some c =>
      have hc : c ∈ t := by
        obtain ⟨hne, heq⟩ := List.mem_getLast?_eq_getLast (Option.mem_def.2 hg)
        rw [heq]
        exact List.getLast_mem hne
      apply beq_eq_false_iff_ne.2
      intro heq
      injection heq with heq
      exact ws_ne_colon (h c hc) heq
  have h3 : romanBranch t = false := by
    cases t with
    | nil => rfl
    | cons c r =>
      have hivx : isIVX c = false := ws_not_ivx (h c (List.mem_cons_self _ _))
      simp only [romanBranch, List.takeWhile_cons, hivx]
      simp
  simp only [isHeader, htl, hst, h1, h2, h3, Bool.and_false, Bool.false_and,
    Bool.or_false]
  decide

theorem getReadingScore_strip_nil {t : Str} (hs : strip t = []) :
    getReadingScore t = 0 := by
  simp only [getReadingScore, hs]
  decide

theorem isInstruction_strip_nil {t : Str} (hs : strip t = []) :
    isInstruction t = false := by
  simp only [isInstruction, hs]
  decide

theorem classifyStep_ws (recur : Nat → Str → Nat → Nat → Nat × List Item)
    (week start stop : Nat) (isSplit : Bool) (t : Str)
    (hh : isHeader t = false) (hi : isInstruction t = false)
    (hsc : getReadingScore t = 0) (hsp : splitConcatenatedReadings t = []) :
    ∃ i : Item, classifyStep recur week t start stop isSplit = (week, [i]) ∧
      (i.cls = Cls.tooShort ∨ i.cls = Cls.unknown) := by
  simp only [classifyStep, hh, hi, hsc, hsp]
  by_cases hlen : t.length < 20
  · rw [if_pos hlen]
    exact ⟨_, rfl, Or.inl rfl⟩
  · rw [if_neg hlen]
    rw [if_neg (by simp : ¬ (false = true))]
    rw [if_neg (by simp : ¬ (false = true))]
    rw [if_neg (by decide : ¬ ((3 : Int) ≤ 0))]
    rw [if_neg (by decide : ¬ ((1 : Int) ≤ 0))]
    rw [if_neg (by decide : ¬ (1 < ([] : List Str).length))]
    exact ⟨_, rfl, Or.inr rfl⟩

theorem mergeAux_skip {it : RawLine} (hit : strip it.text = []) :
    ∀ (pre : List RawLine) (cur : Option MUnit) (post : List RawLine),
      mergeAux cur (pre ++ it :: post) = mergeAux cur (pre ++ post) := by
  intro pre
  induction pre with
  | nil =>
    intro cur post
    simp only [List.nil_append]
    cases cur with
    | none =>
      conv_lhs => rw [mergeAux]
      rw [hit]
      simp
    | some c =>
      conv_lhs => rw [mergeAux]
      rw [hit]
      simp
  | cons p ps ih =>
    intro cur post
    simp only [List.cons_append]
    cases cur with
    | none =>
      conv_lhs => rw [mergeAux]
      conv_rhs => rw [mergeAux]
      by_cases h0 : (strip p.text).length = 0
      · rw [if_pos h0, if_pos h0]
        exact ih none post
      · rw [if_neg h0, if_neg h0]
        exact ih _ post
    | some c =>
      conv_lhs => rw [mergeAux]
      conv_rhs => rw [mergeAux]
      by_cases h0 : (strip p.text).length = 0
      · rw [if_pos h0, if_pos h0]
        exact ih _ post
      · rw [if_neg h0, if_neg h0]
        by_cases hm : shouldMergeLines c.full_text (strip p.text) = true
        · rw [if_pos hm, if_pos hm]
          exact ih _ post
        · rw [if_neg hm, if_neg hm]
          rw [ih _ post]

/-- C8: whitespace-only (in particular empty) input degrades to defined
results everywhere: `classify_single_text` buckets it as too-short or
unknown and leaves the week counter unchanged, the splitter returns the
empty list, and the merger skips it as a fragment without disturbing the
rest of the merge. -/
theorem C8_total_on_malformed (t : Str) (h : ∀ c ∈ t, isPySpace c = true)
    (fuel week start stop : Nat) (isSplit : Bool)
    (pre post : List RawLine) (it : RawLine)
    (hit : ∀ c ∈ it.text, isPySpace c = true) :
    (∃ i : Item, classifySingle fuel week t start stop isSplit = (week, [i]) ∧
        (i.cls = Cls.tooShort ∨ i.cls = Cls.unknown)) ∧
      splitConcatenatedReadings t = [] ∧
      mergeFragmentedLines (pre ++ it :: post) =
        mergeFragmentedLines (pre ++ post) := by
  have hst : strip t = [] := strip_all_ws h
  have hh := isHeader_ws h
  have hi := isInstruction_strip_nil hst
  have hsc := getReadingScore_strip_nil hst
  have hsp := split_ws h
  refine ⟨?_, hsp, ?_⟩
  · cases fuel with
    | zero =>
      rw [classifySingle]
      exact classifyStep_ws _ week start stop isSplit t hh hi hsc hsp
    | succ f =>
      rw [classifySingle]
      exact classifyStep_ws _ week start stop isSplit t hh hi hsc hsp
  · exact mergeAux_skip (strip_all_ws hit) pre none post

/-- C8 witness: the theorem applied at a concrete whitespace-only text
and a concrete fragment list. -/
theorem C8_witness :
    (∀ c ∈ (' ' :: '\t' :: '\n' :: ' ' :: []), isPySpace c = true) ∧
      ((∃ i : Item, classifySingle 4 7 (' ' :: '\t' :: '\n' :: ' ' :: []) 2 3
            false = (7, [i]) ∧
          (i.cls = Cls.tooShort ∨ i.cls = Cls.unknown)) ∧
        splitConcatenatedReadings (' ' :: '\t' :: '\n' :: ' ' :: []) = [] ∧
        mergeFragmentedLines
            ([⟨"Alpha beta gamma.".data, 0, 1⟩] ++ ⟨"  ".data, 1, 2⟩ ::
              [⟨"Delta epsilon.".data, 2, 3⟩]) =
          mergeFragmentedLines
            ([⟨"Alpha beta gamma.".data, 0, 1⟩] ++
              [⟨"Delta epsilon.".data, 2, 3⟩])) :=
  ⟨by decide,
    C8_total_on_malformed (' ' :: '\t' :: '\n' :: ' ' :: []) (by decide)
      4 7 2 3 false [⟨"Alpha beta gamma.".data, 0, 1⟩]
      [⟨"Delta epsilon.".data, 2, 3⟩] ⟨"  ".data, 1, 2⟩ (by decide)⟩

/-! ### C10: week headers are headers -/

theorem digit_not_upper {d : Char} (h : isDigitC d = true) :
    isUpperC d = false := by
  simp only [isDigitC, Bool.and_eq_true, decide_eq_true_eq] at h
  rw [Bool.eq_false_iff]
  intro hu
  simp only [isUpperC, Bool.and_eq_true, decide_eq_true_eq] at hu
  obtain ⟨h1, h2⟩ := h
  obtain ⟨h3, h4⟩ := hu
  rw [Char.le_def] at h2 h3
  rw [UInt32.le_def] at h2 h3
  simp only [BitVec.le_def] at h2 h3
  simp at h2 h3
  omega

theorem digit_pyLower {d : Char} (h : isDigitC d = true) : pyLower d = d := by
  unfold pyLower
  rw [digit_not_upper h]
  simp

theorem digit_not_ws {d : Char} (h : isDigitC d = true) :
    isPySpace d = false := by
  cases hws : isPySpace d with
  | false => rfl
  | true =>
    rcases ws_enum hws with h2 | h2 | h2 | h2 | h2 | h2 <;> subst h2 <;>
      exact absurd h (by decide)

theorem rs_append (X : Str) (d : Char) (T : Str) (hd : isPySpace d = false) :
    ∃ G, ((X ++ d :: T).reverse.dropWhile isPySpace).reverse = X ++ d :: G := by
  rw [List.reverse_append, List.reverse_cons, List.append_assoc,
    List.singleton_append, List.dropWhile_append]
  by_cases hE : (T.reverse.dropWhile isPySpace).isEmpty
  · refine ⟨[], ?_⟩
    rw [if_pos hE, List.dropWhile_cons, hd]
    simp
  · refine ⟨(T.reverse.dropWhile isPySpace).reverse, ?_⟩
    rw [if_neg hE]
    rw [List.reverse_append, List.reverse_cons, List.reverse_reverse]
    simp

/-- C10: whenever `is_week_header` extracts a week number, `is_header`
accepts the same text via its week branch. -/
theorem C10_week_header_is_header (t : Str) (n : Nat)
    (h : isWeekHeader t = some n) : isHeader t = true := by
  unfold isWeekHeader at h
  split at h
  · rename_i w e1 e2 k rest heq
    by_cases hcond : (pyLower w = 'w' && pyLower e1 = 'e' &&
        pyLower e2 = 'e' && pyLower k = 'k') = true
    · rw [if_pos hcond] at h
      simp only [Bool.and_eq_true, decide_eq_true_eq] at hcond
      obtain ⟨⟨⟨hw, he1⟩, he2⟩, hk⟩ := hcond
      split at h
      · rename_i c r2
        by_cases hws : isPySpace c = true
        · rw [if_pos hws] at h
          by_cases hdig :
              0 < ((r2.dropWhile isPySpace).takeWhile isDigitC).length
          · rcases hdd : r2.dropWhile isPySpace with _ | ⟨d, tail⟩
            · rw [hdd] at hdig
              simp at hdig
            · rw [hdd] at hdig
              by_cases hdC : isDigitC d = true
              · have hlr2 : List.map pyLower r2 =
                    List.map pyLower (r2.takeWhile isPySpace) ++
                      d :: List.map pyLower tail := by
                  conv_lhs =>
                    rw [← List.takeWhile_append_dropWhile isPySpace r2]
                  rw [List.map_append, hdd, List.map_cons, digit_pyLower hdC]
                have hlt : List.map pyLower t =
                    List.map pyLower (t.takeWhile isPySpace) ++
                      ('w' :: 'e' :: 'e' :: 'k' :: c ::
                        (List.map pyLower (r2.takeWhile isPySpace) ++
                          d :: List.map pyLower tail)) := by
                  conv_lhs =>
                    rw [← List.takeWhile_append_dropWhile isPySpace t]
                  rw [List.map_append, heq, List.map_cons, List.map_cons,
                    List.map_cons, List.map_cons, List.map_cons]
                  rw [hw, he1, he2, hk, ws_pyLower hws, hlr2]
                have hwsP : ∀ x ∈ List.map pyLower (t.takeWhile isPySpace),
                    isPySpace x = true := by
                  intro x hx
                  refine lowerStr_ws ?_ x hx
                  intro c2 hc2
                  exact List.all_eq_true.1 List.all_takeWhile c2 hc2
                have hwsA : ∀ x ∈ List.map pyLower (r2.takeWhile isPySpace),
                    isPySpace x = true := by
                  intro x hx
                  refine lowerStr_ws ?_ x hx
                  intro c2 hc2
                  exact List.all_eq_true.1 List.all_takeWhile c2 hc2
                have hstr1 : strip (lowerStr t) =
                    strip ('w' :: 'e' :: 'e' :: 'k' :: c ::
                      (List.map pyLower (r2.takeWhile isPySpace) ++
                        d :: List.map pyLower tail)) := by
                  show strip (List.map pyLower t) = _
                  rw [hlt]
                  exact strip_ws_left _ hwsP
                have hfront : ('w' :: 'e' :: 'e' :: 'k' :: c ::
                    (List.map pyLower (r2.takeWhile isPySpace) ++
                      d :: List.map pyLower tail)).dropWhile isPySpace =
                    'w' :: 'e' :: 'e' :: 'k' :: c ::
                    (List.map pyLower (r2.takeWhile isPySpace) ++
                      d :: List.map pyLower tail) := by
                  rw [List.dropWhile_cons]
                  rw [if_neg (by decide : ¬(isPySpace 'w' = true))]
                obtain ⟨G, hG⟩ := rs_append
                  ('w' :: 'e' :: 'e' :: 'k' :: c ::
                    List.map pyLower (r2.takeWhile isPySpace))
                  d (List.map pyLower tail) (digit_not_ws hdC)
                have hassoc : ('w' :: 'e' :: 'e' :: 'k' :: c ::
                    (List.map pyLower (r2.takeWhile isPySpace) ++
                      d :: List.map pyLower tail)) =
                    ('w' :: 'e' :: 'e' :: 'k' :: c ::
                      List.map pyLower (r2.takeWhile isPySpace)) ++
                      d :: List.map pyLower tail := by
                  simp
                have hstr : strip (lowerStr t) =
                    'w' :: 'e' :: 'e' :: 'k' :: c ::
                      (List.map pyLower (r2.takeWhile isPySpace) ++
                        d :: G) := by
                  rw [hstr1]
                  unfold strip
                  rw [hfront, hassoc, hG]
                  simp
                have hM : (List.map pyLower (r2.takeWhile isPySpace) ++
                    d :: G).dropWhile isPySpace = d :: G := by
                  rw [dropWhile_append_all (d :: G) hwsA]
                  rw [List.dropWhile_cons]
                  rw [if_neg (by rw [digit_not_ws hdC]; simp)]
                have hwb : weekBranch ('w' :: 'e' :: 'e' :: 'k' :: c ::
                    (List.map pyLower (r2.takeWhile isPySpace) ++
                      d :: G)) = true := by
                  rw [weekBranch]
                  rw [List.dropWhile_cons, hws, if_pos rfl, hM]
                  exact hdC
                have hsb : stripLeadingBullets
                    ('w' :: 'e' :: 'e' :: 'k' :: c ::
                      (List.map pyLower (r2.takeWhile isPySpace) ++
                        d :: G)) =
                    'w' :: 'e' :: 'e' :: 'k' :: c ::
                      (List.map pyLower (r2.takeWhile isPySpace) ++
                        d :: G) := by
                  simp only [stripLeadingBullets, List.takeWhile_cons]
                  rw [if_neg (by decide : ¬(isBulletLead 'w' = true))]
                  simp
                simp only [isHeader]
                rw [hstr, hsb, hwb]
                simp
              · rw [List.takeWhile_cons, if_neg hdC] at hdig
                simp at hdig
          · rw [if_neg hdig] at h
            exact Option.noConfusion h
        · rw [if_neg hws] at h
          exact Option.noConfusion h
      · exact Option.noConfusion h
    · rw [if_neg hcond] at h
      exact Option.noConfusion h
  · exact Option.noConfusion h

/-- C10 witness: the theorem applied at a concrete week header. -/
theorem C10_witness :
    isWeekHeader "Week 5: Foundations".data = some 5 ∧
      isHeader "Week 5: Foundations".data = true :=
  ⟨by decide, C10_week_header_is_header "Week 5: Foundations".data 5 (by decide)⟩

/-! ### C4: week tagging -/

theorem weekInv_append {w : Nat} {l1 l2 : List Item}
    (h1 : WeekInv w l1) (h2 : WeekInv (l1.foldl weekUpd w) l2) :
    WeekInv w (l1 ++ l2) := by
  induction l1 generalizing w with
  | nil => simpa using h2
  | cons it rest ih =>
    obtain ⟨ha, hb⟩ := h1
    rw [List.foldl_cons] at h2
    exact ⟨ha, ih hb h2⟩

theorem recFold_week (recur : Nat → Str → Nat → Nat → Nat × List Item)
    (hrec : ∀ w t st sp, (recur w t st sp).1 =
        (recur w t st sp).2.foldl weekUpd w ∧ WeekInv w (recur w t st sp).2)
    (st sp : Nat) (parts : List Str) :
    ∀ (w0 : Nat) (cur : Nat × List Item),
      cur.1 = cur.2.foldl weekUpd w0 → WeekInv w0 cur.2 →
      ((parts.foldl (fun acc seg =>
          let r := recur acc.1 (strip seg) st sp
          (r.1, acc.2 ++ r.2)) cur).1 =
        (parts.foldl (fun acc seg =>
          let r := recur acc.1 (strip seg) st sp
          (r.1, acc.2 ++ r.2)) cur).2.foldl weekUpd w0) ∧
      WeekInv w0 (parts.foldl (fun acc seg =>
        let r := recur acc.1 (strip seg) st sp
        (r.1, acc.2 ++ r.2)) cur).2 := by
  induction parts with
  | nil => intro w0 cur h1 h2; exact ⟨h1, h2⟩
  | cons p ps ih =>
    intro w0 cur h1 h2
    rw [List.foldl_cons]
    apply ih
    · show (recur cur.1 (strip p) st sp).1 =
        (cur.2 ++ (recur cur.1 (strip p) st sp).2).foldl weekUpd w0
      obtain ⟨hr1, _⟩ := hrec cur.1 (strip p) st sp
      rw [List.foldl_append, ← h1, hr1]
    · show WeekInv w0 (cur.2 ++ (recur cur.1 (strip p) st sp).2)
      obtain ⟨hr1, hr2⟩ := hrec cur.1 (strip p) st sp
      refine weekInv_append h2 ?_
      rw [← h1]
      exact hr2

theorem classifyStep_week (recur : Nat → Str → Nat → Nat → Nat × List Item)
    (hrec : ∀ w t st sp, (recur w t st sp).1 =
        (recur w t st sp).2.foldl weekUpd w ∧ WeekInv w (recur w t st sp).2)
    (week : Nat) (t : Str) (st sp : Nat) (isSplit : Bool) :
    (classifyStep recur week t st sp isSplit).1 =
      (classifyStep recur week t st sp isSplit).2.foldl weekUpd week ∧
      WeekInv week (classifyStep recur week t st sp isSplit).2 := by
  simp only [classifyStep]
  by_cases h1 : t.length < 20
  · rw [if_pos h1]
    simp [WeekInv, weekUpd]
  · rw [if_neg h1]
    by_cases h2 : isHeader t = true
    · rw [if_pos h2]
      split
      · rename_i w2 hW2
        split
        · rename_i hn
          simp [WeekInv, weekUpd, hW2, hn]
        · rename_i hn
          have hz : w2 = 0 := by omega
          simp [WeekInv, weekUpd, hW2, hz]
      · rename_i hW2
        simp [WeekInv, weekUpd, hW2]
    · rw [if_neg h2]
      by_cases h3 : isInstruction t = true
      · rw [if_pos h3]
        simp [WeekInv, weekUpd]
      · rw [if_neg h3]
        by_cases h4 : (3 : Int) ≤ getReadingScore t
        · rw [if_pos h4]
          simp [WeekInv, weekUpd]
        · rw [if_neg h4]
          by_cases h5 : (1 : Int) ≤ getReadingScore t
          · rw [if_pos h5]
            by_cases h6 : 1 < (splitConcatenatedReadings t).length
            · rw [if_pos h6]
              exact recFold_week recur hrec st sp _ week (week, [])
                rfl trivial
            · rw [if_neg h6]
              simp [WeekInv, weekUpd]
          · rw [if_neg h5]
            by_cases h6 : 1 < (splitConcatenatedReadings t).length
            · rw [if_pos h6]
              exact recFold_week recur hrec st sp _ week (week, [])
                rfl trivial
            · rw [if_neg h6]
              simp [WeekInv, weekUpd]

theorem classifySingle_week (fuel : Nat) :
    ∀ (w : Nat) (t : Str) (st sp : Nat) (isSplit : Bool),
      (classifySingle fuel w t st sp isSplit).1 =
        (classifySingle fuel w t st sp isSplit).2.foldl weekUpd w ∧
      WeekInv w (classifySingle fuel w t st sp isSplit).2 := by
  induction fuel with
  | zero =>
    intro w t st sp isSplit
    rw [classifySingle]
    exact classifyStep_week (fun w2 _ _ _ => (w2, []))
      (fun w2 t2 st2 sp2 => ⟨rfl, trivial⟩) w t st sp isSplit
  | succ f ih =>
    intro w t st sp isSplit
    rw [classifySingle]
    exact classifyStep_week
      (fun w2 t2 st2 sp2 => classifySingle f w2 t2 st2 sp2 true)
      (fun w2 t2 st2 sp2 => ih w2 t2 st2 sp2 true) w t st sp isSplit

theorem classifyLine_week (fuel w : Nat) (u : MUnit) :
    (classifyLine fuel w u).1 = (classifyLine fuel w u).2.foldl weekUpd w ∧
      WeekInv w (classifyLine fuel w u).2 := by
  simp only [classifyLine]
  by_cases h1 : 60 < u.full_text.length
  · rw [if_pos h1]
    by_cases h2 : (1 < (extractAuthorYearStarts u.full_text).length ||
        2 < (reFindIter authorLikeRE u.full_text).length) = true
    · rw [if_pos h2]
      by_cases h3 : 1 < (splitConcatenatedReadings u.full_text).length
      · rw [if_pos h3]
        exact recFold_week _
          (fun w2 t2 st2 sp2 => classifySingle_week fuel w2 t2 st2 sp2 true)
          u.start u.stop _ w (w, []) rfl trivial
      · rw [if_neg h3]
        exact classifySingle_week fuel w u.full_text u.start u.stop false
    · rw [if_neg h2]
      exact classifySingle_week fuel w u.full_text u.start u.stop false
  · rw [if_neg h1]
    exact classifySingle_week fuel w u.full_text u.start u.stop false

theorem docFold_week (fuel : Nat) (us : List MUnit) :
    ∀ (w0 : Nat) (cur : Nat × List Item),
      cur.1 = cur.2.foldl weekUpd w0 → WeekInv w0 cur.2 →
      ((us.foldl (fun acc u =>
          let r := classifyLine fuel acc.1 u
          (r.1, acc.2 ++ r.2)) cur).1 =
        (us.foldl (fun acc u =>
          let r := classifyLine fuel acc.1 u
          (r.1, acc.2 ++ r.2)) cur).2.foldl weekUpd w0) ∧
      WeekInv w0 (us.foldl (fun acc u =>
        let r := classifyLine fuel acc.1 u
        (r.1, acc.2 ++ r.2)) cur).2 := by
  induction us with
  | nil => intro w0 cur h1 h2; exact ⟨h1, h2⟩
  | cons u us ih =>
    intro w0 cur h1 h2
    rw [List.foldl_cons]
    apply ih
    · show (classifyLine fuel cur.1 u).1 =
        (cur.2 ++ (classifyLine fuel cur.1 u).2).foldl weekUpd w0
      obtain ⟨hr1, _⟩ := classifyLine_week fuel cur.1 u
      rw [List.foldl_append, ← h1, hr1]
    · show WeekInv w0 (cur.2 ++ (classifyLine fuel cur.1 u).2)
      obtain ⟨hr1, hr2⟩ := classifyLine_week fuel cur.1 u
      refine weekInv_append h2 ?_
      rw [← h1]
      exact hr2

set_option maxRecDepth 10000 in
/-- C4 counterexample: the week counter is NOT updated by every header
matching the week pattern — a `Week 0` header matches the pattern with
value 0, but the Python truthiness test `if week:` rejects 0, so the
counter keeps its previous value and the following reading is tagged 3,
not 0 as the claim predicts. -/
theorem C4_counterexample :
    (classifyDoc 4 [⟨"Week 3: Foundations Of Theory.".data, 0, 1⟩,
        ⟨"Week 0: Introduction To Course.".data, 1, 2⟩,
        ⟨"Smith, J. (2020). Gender And Power, pp. 45-60.".data, 2, 3⟩]).map
        (fun it => (it.cls, it.week)) =
      [(Cls.header, 3), (Cls.header, 3), (Cls.reading, 3)] ∧
      isWeekHeader "Week 0: Introduction To Course.".data = some 0 := by
  constructor <;> decide

/-- C4 (amended): in one classification run in document order the week
counter starts at 0 and is updated exactly by the transition `weekUpd`
(only a header item whose text matches the week pattern with a NONZERO
number sets it), and every item classified as a reading is tagged with
the week value in force at its position. -/
theorem C4_week_tagging (fuel : Nat) (raw : List RawLine) :
    WeekInv 0 (classifyDoc fuel raw) := by
  unfold classifyDoc
  exact (docFold_week fuel (mergeFragmentedLines (collectLines raw)) 0
    (0, []) rfl trivial).2

/-! ### C9: mutual exclusion of the three label predicates -/

theorem ivx_enum {c : Char} (h : isIVX c = true) :
    c = 'I' ∨ c = 'V' ∨ c = 'X' := by
  simp only [isIVX, Bool.or_eq_true, decide_eq_true_eq] at h
  tauto

theorem ivx_not_ws {c : Char} (h : isIVX c = true) : isPySpace c = false := by
  rcases ivx_enum h with h | h | h <;> subst h <;> decide

theorem ivx_not_bullet {c : Char} (h : isIVX c = true) :
    isBulletLead c = false := by
  rcases ivx_enum h with h | h | h <;> subst h <;> decide

theorem dropWhile_none {p : Char → Bool} {m : Str}
    (h : ∀ c ∈ m, p c = false) : m.dropWhile p = m := by
  cases m with
  | nil => rfl
  | cons a r =>
    rw [List.dropWhile_cons, h a (List.mem_cons_self _ _)]
    simp

theorem strip_no_ws {l : Str} (h : ∀ c ∈ l, isPySpace c = false) :
    strip l = l := by
  unfold strip
  rw [dropWhile_none h, dropWhile_none (fun c hc => h c (List.mem_reverse.1 hc)),
    List.reverse_reverse]

theorem canMatch_sound {S : List Char} {s : Str} (hs : ∀ c ∈ s, c ∈ S) :
    ∀ r : RE, canMatchIn S r = false → ∀ i, reEnds r s i = [] := by
  intro r
  induction r with
  | eps => intro h i; simp [canMatchIn] at h
  | bos => intro h i; simp [canMatchIn] at h
  | eos => intro h i; simp [canMatchIn] at h
  | wb => intro h i; simp [canMatchIn] at h
  | cls p =>
    intro h i
    rw [canMatchIn] at h
    rw [reEnds]
    cases hg : s.get? i with
    | none => rfl
    | some c =>
      have hc : p c = false := by
        have h2 := List.any_eq_false.1 h c (hs c (List.get?_mem hg))
        exact Bool.eq_false_iff.2 h2
      simp [hc]
  | seq a b iha ihb =>
    intro h i
    rw [canMatchIn] at h
    rw [reEnds]
    rcases Bool.and_eq_false_iff.1 h with h1 | h1
    · rw [iha h1 i]
      rfl
    · simp only [ihb h1]
      simp
  | alt a b iha ihb =>
    intro h i
    rw [canMatchIn] at h
    rw [Bool.or_eq_false_iff] at h
    rw [reEnds, iha h.1 i, ihb h.2 i]
    rfl
  | star p => intro h i; simp [canMatchIn] at h
  | plus p =>
    intro h i
    rw [canMatchIn] at h
    have hn : countWhile p s i = 0 := by
      unfold countWhile
      cases hd : s.drop i with
      | nil => simp
      | cons a r =>
        have ha : a ∈ s := by
          have : a ∈ s.drop i := by rw [hd]; exact List.mem_cons_self _ _
          exact List.mem_of_mem_drop this
        have hpa : p a = false :=
          Bool.eq_false_iff.2 (List.any_eq_false.1 h a (hs a ha))
        rw [List.takeWhile_cons, hpa]
        simp
    simp [reEnds, hn]
  | rep p lo hi =>
    intro h i
    rw [canMatchIn] at h
    by_cases hlo : lo = 0
    · rw [if_pos hlo] at h
      simp at h
    · rw [if_neg hlo] at h
      have hn : countWhile p s i = 0 := by
        unfold countWhile
        cases hd : s.drop i with
        | nil => simp
        | cons a r =>
          have ha : a ∈ s := by
            have : a ∈ s.drop i := by rw [hd]; exact List.mem_cons_self _ _
            exact List.mem_of_mem_drop this
          have hpa : p a = false :=
            Bool.eq_false_iff.2 (List.any_eq_false.1 h a (hs a ha))
          rw [List.takeWhile_cons, hpa]
          simp
      cases hi with
      | none =>
        rw [reEnds]
        simp only [hn]
        rw [if_neg (by omega)]
      | some hh =>
        rw [reEnds]
        simp only [hn]
        rw [if_neg (by omega)]
  | opt a iha => intro h i; simp [canMatchIn] at h
  | look a iha =>
    intro h i
    rw [canMatchIn] at h
    rw [reEnds, iha h i]
    rfl
  | lookb p =>
    intro h i
    rw [canMatchIn] at h
    rw [reEnds]
    by_cases hi : i = 0
    · rw [if_pos hi]
    · rw [if_neg hi]
      cases hg : s.get? (i - 1) with
      | none => rfl
      | some c =>
        have hc : p c = false :=
          Bool.eq_false_iff.2 (List.any_eq_false.1 h c (hs c (List.get?_mem hg)))
        simp [hc]

theorem canMatch_searchB {S : List Char} {s : Str} (hs : ∀ c ∈ s, c ∈ S)
    (r : RE) (h : canMatchIn S r = false) : reSearchB r s = false := by
  unfold reSearchB searchAux
  suffices h2 : ∀ fuel i, searchGo r s fuel i = none by
    rw [h2]
    rfl
  intro fuel
  induction fuel with
  | zero => intro i; rfl
  | succ f ih =>
    intro i
    rw [searchGo]
    by_cases hle : i ≤ s.length
    · rw [if_pos hle, canMatch_sound hs r h i]
      exact ih (i + 1)
    · rw [if_neg hle]

theorem canMatch_matchB {S : List Char} {s : Str} (hs : ∀ c ∈ s, c ∈ S)
    (r : RE) (h : canMatchIn S r = false) : reMatchB r s = false := by
  unfold reMatchB
  rw [canMatch_sound hs r h 0]
  rfl

theorem countSearch_zero {ps : List RE} {u : Str}
    (h : ∀ p ∈ ps, reSearchB p u = false) : countSearch ps u = 0 := by
  unfold countSearch
  have h2 : ps.filter (fun p => reSearchB p u) = [] :=
    List.filter_eq_nil.2 (fun p hp => by simp [h p hp])
  rw [h2]
  rfl

theorem negFold_nonpos {ps : List (RE × Int)} {u : Str}
    (h : ∀ pr ∈ ps, pr.2 ≤ 0) :
    ps.foldl (fun a pr => if reSearchB pr.1 u then a + pr.2 else a) 0 ≤ 0 := by
  suffices h2 : ∀ a : Int, a ≤ 0 →
      ps.foldl (fun a pr => if reSearchB pr.1 u then a + pr.2 else a) a ≤ 0 from
    h2 0 le_rfl
  induction ps with
  | nil => intro a ha; exact ha
  | cons pr rest ih =>
    intro a ha
    rw [List.foldl_cons]
    by_cases hp : reSearchB pr.1 u = true
    · rw [if_pos hp]
      refine ih (fun q hq => h q (List.mem_cons_of_mem _ hq)) _ ?_
      have := h pr (List.mem_cons_self _ _)
      omega
    · rw [if_neg hp]
      exact ih (fun q hq => h q (List.mem_cons_of_mem _ hq)) a ha

theorem roman_tc {t r : Str} (hr : strip t = r ++ ['.'])
    (hrpos : 0 < r.length) (hrivx : ∀ c ∈ r, isIVX c = true) :
    stripLeadingBullets (strip t) = strip t := by
  rw [hr]
  cases r with
  | nil => simp at hrpos
  | cons a r2 =>
    have hb : isBulletLead a = false :=
      ivx_not_bullet (hrivx a (List.mem_cons_self _ _))
    simp only [stripLeadingBullets, List.cons_append, List.takeWhile_cons, hb]
    simp

theorem roman_memS {t r : Str} (hr : strip t = r ++ ['.'])
    (hrivx : ∀ c ∈ r, isIVX c = true) :
    ∀ c ∈ strip t, c ∈ ['I', 'V', 'X', '.'] := by
  intro c hc
  rw [hr] at hc
  rcases List.mem_append.1 hc with h1 | h1
  · rcases ivx_enum (hrivx c h1) with h | h | h <;> subst h <;> decide
  · rw [List.mem_singleton.1 h1]
    decide

theorem roman_memSlow {t r : Str} (hr : strip t = r ++ ['.'])
    (hrivx : ∀ c ∈ r, isIVX c = true) :
    ∀ c ∈ lowerStr (strip t), c ∈ ['i', 'v', 'x', '.'] := by
  intro c hc
  obtain ⟨a, ha, hmap⟩ := List.mem_map.1 hc
  have h3 : a = 'I' ∨ a = 'V' ∨ a = 'X' ∨ a = '.' := by
    simpa using roman_memS hr hrivx a ha
  rw [← hmap]
  rcases h3 with h | h | h | h <;> subst h <;> decide

theorem roman_reading_score {t r : Str} (hr : strip t = r ++ ['.'])
    (hrpos : 0 < r.length) (hrivx : ∀ c ∈ r, isIVX c = true) :
    getReadingScore (strip t) ≤ 1 := by
  have hmem := roman_memS hr hrivx
  have htc := roman_tc hr hrpos hrivx
  simp only [getReadingScore, strip_idem, htc]
  have hst : countSearch readingStrongPatterns (strip t) = 0 :=
    countSearch_zero (fun p hp => canMatch_searchB hmem p
      ((by decide : ∀ p ∈ readingStrongPatterns,
          canMatchIn ['I', 'V', 'X', '.'] p = false) p hp))
  have hmd : countSearch readingMediumPatterns (strip t) = 0 :=
    countSearch_zero (fun p hp => canMatch_searchB hmem p
      ((by decide : ∀ p ∈ readingMediumPatterns,
          canMatchIn ['I', 'V', 'X', '.'] p = false) p hp))
  have hau : looksLikeAuthor (strip t) = false := by
    simp only [looksLikeAuthor, strip_idem]
    by_cases h0 : (strip t).length = 0
    · rw [if_pos h0]
    · rw [if_neg h0]
      rw [List.any_eq_false]
      intro p hp
      simp [canMatch_matchB hmem p ((by decide : ∀ p ∈ authorPatterns,
        canMatchIn ['I', 'V', 'X', '.'] p = false) p hp)]
  have hng : readingNegativePatterns.foldl
      (fun a pr => if reSearchB pr.1 (strip t) then a + pr.2 else a) 0 ≤ 0 :=
    negFold_nonpos (by decide)
  rw [hst, hmd, hau]
  rw [if_neg (by simp : ¬(false = true))]
  by_cases hln : 80 < (strip t).length
  · rw [if_pos hln]
    omega
  · rw [if_neg hln]
    omega

theorem roman_instr_score {t r : Str} (hr : strip t = r ++ ['.'])
    (hrpos : 0 < r.length) (hrivx : ∀ c ∈ r, isIVX c = true) :
    getInstructionScore (strip t) ≤ 0 := by
  have hmemL := roman_memSlow hr hrivx
  have htc := roman_tc hr hrpos hrivx
  simp only [getInstructionScore, strip_idem, htc]
  have hcd : isCourseDescription (strip t) = false := by
    simp only [isCourseDescription]
    have hnows : ∀ c ∈ lowerStr (strip t), isPySpace c = false := by
      intro c hc
      have h4 : c = 'i' ∨ c = 'v' ∨ c = 'x' ∨ c = '.' := by
        simpa using hmemL c hc
      rcases h4 with h | h | h | h <;> subst h <;> decide
    rw [strip_no_ws hnows]
    rw [List.any_eq_false]
    intro p hp
    simp [canMatch_searchB hmemL p ((by decide : ∀ p ∈ courseDescPatterns,
      canMatchIn ['i', 'v', 'x', '.'] p = false) p hp)]
  have hst : countSearch instrStrongPatterns (lowerStr (strip t)) = 0 :=
    countSearch_zero (fun p hp => canMatch_searchB hmemL p
      ((by decide : ∀ p ∈ instrStrongPatterns,
          canMatchIn ['i', 'v', 'x', '.'] p = false) p hp))
  have hmd : countSearch instrMediumPatterns (lowerStr (strip t)) = 0 :=
    countSearch_zero (fun p hp => canMatch_searchB hmemL p
      ((by decide : ∀ p ∈ instrMediumPatterns,
          canMatchIn ['i', 'v', 'x', '.'] p = false) p hp))
  have hwk : countSearch instrWeakPatterns (lowerStr (strip t)) = 0 :=
    countSearch_zero (fun p hp => canMatch_searchB hmemL p
      ((by decide : ∀ p ∈ instrWeakPatterns,
          canMatchIn ['i', 'v', 'x', '.'] p = false) p hp))
  have hng : instrNegativePatterns.foldl
      (fun a pr => if reSearchB pr.1 (lowerStr (strip t)) then a + pr.2 else a)
      0 ≤ 0 :=
    negFold_nonpos (by decide)
  rw [hcd, hst, hmd, hwk]
  rw [if_neg (by simp : ¬(false = true))]
  omega

theorem lowerStr_append (x y : Str) :
    lowerStr (x ++ y) = lowerStr x ++ lowerStr y := by
  unfold lowerStr
  exact List.map_append pyLower x y

theorem strip_lower_strip (t : Str) :
    strip (lowerStr (strip t)) = strip (lowerStr t) := by
  obtain ⟨p, u, ht, hp, hu⟩ := strip_decomp t
  conv_rhs => rw [ht]
  rw [lowerStr_append, lowerStr_append]
  rw [strip_ws_right (lowerStr_ws hu), strip_ws_left _ (lowerStr_ws hp)]

theorem getLast_strip {t : Str} {d : Char} (h : t.getLast? = some d)
    (hd2 : isPySpace d = false) : (strip t).getLast? = some d := by
  rcases List.eq_nil_or_concat t with rfl | ⟨X, d2, rfl⟩
  · simp at h
  · rw [List.concat_eq_append] at h ⊢
    rw [List.getLast?_concat] at h
    injection h with h
    subst h
    unfold strip
    rw [List.dropWhile_append]
    by_cases hE : (X.dropWhile isPySpace).isEmpty
    · rw [if_pos hE]
      simp [List.dropWhile_cons, hd2]
    · rw [if_neg hE]
      simp [List.reverse_append, List.dropWhile_cons, hd2,
        List.getLast?_concat]

theorem upper_not_ws {c : Char} (h : isUpperC c = true) :
    isPySpace c = false := by
  cases hw : isPySpace c with
  | false => rfl
  | true => rw [ws_not_upperC hw] at h; cases h

theorem isUpperPy_strip {t : Str}
    (h : isUpperPy (t.filter (fun c => c ≠ ' ')) = true) :
    isUpperPy ((strip t).filter (fun c => c ≠ ' ')) = true := by
  unfold isUpperPy at h ⊢
  rw [Bool.and_eq_true] at h
  obtain ⟨hany, hall⟩ := h
  rw [Bool.and_eq_true]
  constructor
  · rw [List.any_eq_true] at hany ⊢
    obtain ⟨u, hu, hup⟩ := hany
    refine ⟨u, ?_, hup⟩
    have hmemt : u ∈ t := List.mem_of_mem_filter hu
    have hpred := List.of_mem_filter hu
    exact List.mem_filter.2 ⟨mem_strip_of_not_ws hmemt (upper_not_ws hup),
      hpred⟩
  · rw [List.all_eq_true] at hall ⊢
    intro c hc
    have hmemt : c ∈ strip t := List.mem_of_mem_filter hc
    have hpred := List.of_mem_filter hc
    exact hall c (List.mem_filter.2 ⟨mem_of_mem_strip hmemt, hpred⟩)

theorem takeWhile_all_append {p : Char → Bool} {a : Str} {b : Char} (l : Str)
    (ha : ∀ c ∈ a, p c = true) (hb : p b = false) :
    (a ++ b :: l).takeWhile p = a := by
  induction a with
  | nil => simp [List.takeWhile_cons, hb]
  | cons x xs ih =>
    rw [List.cons_append, List.takeWhile_cons, ha x (List.mem_cons_self _ _)]
    simp [ih (fun c hc => ha c (List.mem_cons_of_mem _ hc))]

theorem strip_sandwich {a : Char} {Y : Str} {d : Char}
    (ha : isPySpace a = false) (hd2 : isPySpace d = false) :
    strip (a :: (Y ++ [d])) = a :: (Y ++ [d]) := by
  unfold strip
  rw [List.dropWhile_cons, ha]
  simp only [Bool.false_eq_true, if_false]
  rw [show (a :: (Y ++ [d])).reverse = d :: (Y.reverse ++ [a]) by simp]
  rw [List.dropWhile_cons, hd2]
  simp

theorem headerStrip {t : Str} (hlen : 3 < (strip t).length)
    (h : isHeader t = true) :
    isHeader (strip t) = true ∨
      ∃ r, strip t = r ++ ['.'] ∧ 0 < r.length ∧ ∀ c ∈ r, isIVX c = true := by
  simp only [isHeader, Bool.or_eq_true] at h
  rcases h with ((((((((((h | h) | h) | h) | h) | h) | h) | h) | h) | h) | h) | h
  · refine Or.inl ?_
    simp only [isHeader, strip_idem, strip_lower_strip]
    rw [h]
    simp
  · refine Or.inl ?_
    simp only [isHeader, strip_idem, strip_lower_strip]
    rw [h]
    simp
  · refine Or.inl ?_
    simp only [isHeader, strip_idem, strip_lower_strip]
    rw [h]
    simp
  · refine Or.inl ?_
    simp only [isHeader, strip_idem, strip_lower_strip]
    rw [h]
    simp
  · refine Or.inl ?_
    simp only [isHeader, strip_idem, strip_lower_strip]
    rw [h]
    simp
  · refine Or.inl ?_
    simp only [isHeader, strip_idem, strip_lower_strip]
    rw [h]
    simp
  · refine Or.inl ?_
    simp only [isHeader, strip_idem, strip_lower_strip]
    rw [h]
    simp
  · refine Or.inl ?_
    simp only [isHeader, strip_idem, strip_lower_strip]
    rw [h]
    simp
  · refine Or.inl ?_
    simp only [isHeader, strip_idem, strip_lower_strip]
    rw [h]
    simp
  · refine Or.inl ?_
    simp only [Bool.and_eq_true, decide_eq_true_eq] at h
    obtain ⟨⟨h60, hup⟩, h3⟩ := h
    simp only [isHeader, strip_idem, strip_lower_strip]
    have hb : ((strip t).length < 60 &&
        isUpperPy ((strip t).filter (fun c => c ≠ ' ')) &&
        3 < (strip t).length) = true := by
      simp only [Bool.and_eq_true, decide_eq_true_eq]
      exact ⟨⟨by have := strip_length_le t; omega, isUpperPy_strip hup⟩, hlen⟩
    rw [hb]
    simp
  · refine Or.inl ?_
    simp only [Bool.and_eq_true, decide_eq_true_eq] at h
    obtain ⟨h40, hbeq⟩ := h
    have hgl : t.getLast? = some ':' := by simpa using hbeq
    have hgs := getLast_strip hgl (by decide)
    simp only [isHeader, strip_idem, strip_lower_strip]
    have hb : ((strip t).length < 40 &&
        ((strip t).getLast? == some ':')) = true := by
      rw [hgs]
      simp only [Bool.and_eq_true, decide_eq_true_eq]
      exact ⟨by have := strip_length_le t; omega, by simp⟩
    rw [hb]
    simp
  · simp only [romanBranch, Bool.and_eq_true, decide_eq_true_eq] at h
    obtain ⟨hpos, hmatch⟩ := h
    obtain ⟨u0, hu0⟩ :=
      (List.takeWhile_prefix isIVX : t.takeWhile isIVX <+: t)
    have hdrop : t.drop (t.takeWhile isIVX).length = u0 := by
      have h4 : (t.takeWhile isIVX ++ u0).drop (t.takeWhile isIVX).length =
          u0 := List.drop_left _ _
      rw [hu0] at h4
      exact h4
    rw [hdrop] at hmatch
    have hall : ∀ c ∈ t.takeWhile isIVX, isIVX c = true := by
      intro c hc
      exact List.all_eq_true.1 List.all_takeWhile c hc
    split at hmatch
    · rename_i c tail
      rcases hrt : tail.reverse.dropWhile isPySpace with _ | ⟨d, es⟩
      · have htail : ∀ x ∈ tail, isPySpace x = true := by
          intro x hx
          have h2 := List.dropWhile_eq_nil_iff.1 hrt x (List.mem_reverse.2 hx)
          simpa using h2
        have hct : ∀ x ∈ c :: tail, isPySpace x = true := by
          intro x hx
          rcases List.mem_cons.1 hx with h2 | h2
          · rw [h2]; exact hmatch
          · exact htail x h2
        refine Or.inr ⟨t.takeWhile isIVX, ?_, hpos, hall⟩
        conv_lhs => rw [← hu0]
        rw [show t.takeWhile isIVX ++ '.' :: c :: tail =
          (t.takeWhile isIVX ++ ['.']) ++ (c :: tail) by simp]
        rw [strip_ws_right hct]
        cases hR : t.takeWhile isIVX with
        | nil => rw [hR] at hpos; simp at hpos
        | cons a R2 =>
          have ha : isPySpace a = false :=
            ivx_not_ws (hall a (by rw [hR]; exact List.mem_cons_self _ _))
          rw [show (a :: R2) ++ ['.'] = a :: (R2 ++ ['.']) by simp]
          exact strip_sandwich ha (by decide)
      · refine Or.inl ?_
        have hd2 : isPySpace d = false := by
          have h2 := List.head?_dropWhile_not isPySpace tail.reverse
          rw [hrt] at h2
          simpa using h2
        have htail : tail = (es.reverse ++ [d]) ++
            (tail.reverse.takeWhile isPySpace).reverse := by
          have h3 : tail.reverse =
              tail.reverse.takeWhile isPySpace ++ (d :: es) := by
            conv_lhs =>
              rw [← List.takeWhile_append_dropWhile isPySpace tail.reverse]
            rw [hrt]
          apply List.reverse_injective
          conv_lhs => rw [h3]
          simp
        have hws2 : ∀ x ∈ (tail.reverse.takeWhile isPySpace).reverse,
            isPySpace x = true := by
          intro x hx
          exact List.all_eq_true.1 List.all_takeWhile x (List.mem_reverse.1 hx)
        have hstr : strip t =
            t.takeWhile isIVX ++ '.' :: c :: (es.reverse ++ [d]) := by
          have hteq : t = (t.takeWhile isIVX ++ '.' :: c ::
              (es.reverse ++ [d])) ++
              (tail.reverse.takeWhile isPySpace).reverse := by
            conv_lhs => rw [← hu0]
            conv_lhs => rw [htail]
            simp
          conv_lhs => rw [hteq]
          rw [strip_ws_right hws2]
          cases hR : t.takeWhile isIVX with
          | nil => rw [hR] at hpos; simp at hpos
          | cons a R2 =>
            have ha : isPySpace a = false :=
              ivx_not_ws (hall a (by rw [hR]; exact List.mem_cons_self _ _))
            rw [show (a :: R2) ++ '.' :: c :: (es.reverse ++ [d]) =
              a :: ((R2 ++ '.' :: c :: es.reverse) ++ [d]) by simp]
            rw [strip_sandwich ha hd2]
        have hrb : romanBranch (strip t) = true := by
          rw [hstr]
          simp only [romanBranch]
          rw [takeWhile_all_append _ hall (by decide)]
          rw [List.drop_left]
          simp [hpos, hmatch]
        simp only [isHeader, strip_idem, strip_lower_strip]
        rw [hrb]
        simp
    · cases hmatch

theorem isInstruction_strip (t : Str) :
    isInstruction (strip t) = isInstruction t := by
  simp only [isInstruction, strip_idem]

/-- C9: at most one of the three label predicates holds for any text: a
header is never an instruction, a header is never a reading, and an
instruction is never a reading.  (`is_instruction` and `is_reading`
evaluate the header test on the stripped text; the only way stripping
can change the header verdict is the roman-numeral branch losing its
trailing whitespace, and such a roman-numeral text scores below both
classification thresholds.) -/
theorem C9_mutual_exclusion (t : Str) :
    (isHeader t && isInstruction t) = false ∧
      (isHeader t && isReading t) = false ∧
      (isInstruction t && isReading t) = false := by
  refine ⟨?_, ?_, ?_⟩
  · by_cases hh : isHeader t = true
    · rw [hh, Bool.true_and]
      simp only [isInstruction]
      by_cases hl : (strip t).length < 15
      · rw [if_pos hl]
      · rw [if_neg hl]
        rcases headerStrip (by omega) hh with hh2 | ⟨r, hr, hrpos, hrivx⟩
        · rw [hh2]
          simp
        · have hsc := roman_instr_score hr hrpos hrivx
          by_cases hh3 : isHeader (strip t) = true
          · rw [hh3]
            simp
          · rw [Bool.eq_false_iff.2 hh3]
            simp only [Bool.false_eq_true, if_false]
            rw [decide_eq_false
              (by omega : ¬ ((3 : Int) ≤ getInstructionScore (strip t)))]
    · rw [Bool.eq_false_iff.2 hh, Bool.false_and]
  · by_cases hh : isHeader t = true
    · rw [hh, Bool.true_and]
      simp only [isReading]
      by_cases hl : (strip t).length < 20
      · rw [if_pos hl]
      · rw [if_neg hl]
        by_cases hcond :
            (isHeader (strip t) || isInstruction (strip t)) = true
        · rw [if_pos hcond]
        · rw [if_neg hcond]
          rcases headerStrip (by omega) hh with hh2 | ⟨r, hr, hrpos, hrivx⟩
          · exfalso
            apply hcond
            rw [hh2, Bool.true_or]
          · have hsc := roman_reading_score hr hrpos hrivx
            rw [decide_eq_false
              (by omega : ¬ ((3 : Int) ≤ getReadingScore (strip t)))]
    · rw [Bool.eq_false_iff.2 hh, Bool.false_and]
  · by_cases hi : isInstruction t = true
    · rw [hi, Bool.true_and]
      simp only [isReading]
      by_cases hl : (strip t).length < 20
      · rw [if_pos hl]
      · rw [if_neg hl]
        have hi2 : isInstruction (strip t) = true := by
          rw [isInstruction_strip]
          exact hi
        rw [hi2, Bool.or_true]
        rw [if_pos rfl]
    · rw [Bool.eq_false_iff.2 hi, Bool.false_and]
